import Mathlib

/-!
Verification of the paisa assets-balance view logic.

Account paths are colon-separated strings, modelled as lists of characters.
JavaScript `Record<string, AssetBreakdown>` objects are modelled as
association lists whose update semantics mirror JS property assignment
(update in place when the key exists, append otherwise).  Numeric amounts
are modelled as rationals.
-/

namespace Paisa

/-- An account path, i.e. the character data of a JS string key. -/
abbrev Path := List Char

/-- The separator used by the account hierarchy (`":"`). -/
def sep : Char := ':'

/-- JS `String.prototype.split(":")` on the character data. -/
def splitCh : Path → List Path
  | [] => [[]]
  | c :: cs =>
    if c = sep then [] :: splitCh cs
    else
      match splitCh cs with
      | [] => [[c]]
      | s :: ss => (c :: s) :: ss

/-- JS `Array.prototype.join(":")` on a list of segments. -/
def joinSep : List Path → Path
  | [] => []
  | [s] => s
  | s :: t :: ss => s ++ sep :: joinSep (t :: ss)

/-- Boolean string-prefix test, as used by `String.prototype.startsWith`. -/
def isPre : Path → Path → Bool
  | [], _ => true
  | _ :: _, [] => false
  | a :: as, b :: bs => if a = b then isPre as bs else false

/-- The test `path.startsWith(parentPath + ":")`. -/
def startsWithSep (parentPath path : Path) : Bool :=
  isPre (parentPath ++ [sep]) path

/-- The default JS `Array.prototype.sort()` comparison (code-unit order). -/
def lexLe : Path → Path → Bool
  | [], _ => true
  | _ :: _, [] => false
  | a :: as, b :: bs => if a < b then true else if b < a then false else lexLe as bs

/-- Stable insertion used to model the default ascending string sort. -/
def insertLex (a : Path) : List Path → List Path
  | [] => [a]
  | b :: bs => if lexLe b a then b :: insertLex a bs else a :: b :: bs

/-- Stable ascending sort by `lexLe`, modelling `.sort()`. -/
def sortLex (l : List Path) : List Path :=
  l.foldr insertLex []

/-- Stable insertion for the descending-depth sort of parent paths. -/
def insertByDepth (p : Path) : List Path → List Path
  | [] => [p]
  | q :: qs =>
    if (splitCh q).length < (splitCh p).length then p :: q :: qs
    else q :: insertByDepth p qs

/-- Stable sort by descending depth, modelling
`.sort((a, b) => b.split(":").length - a.split(":").length)`. -/
def sortByDepthDesc (l : List Path) : List Path :=
  l.foldr insertByDepth []

/-- The `AssetBreakdown` record from `$lib/utils`, with amounts as rationals. -/
structure AssetBreakdown where
  group : Path
  investmentAmount : ℚ
  withdrawalAmount : ℚ
  balanceUnits : ℚ
  marketAmount : ℚ
  gainAmount : ℚ
  xirr : ℚ
  absoluteReturn : ℚ
deriving DecidableEq

/-- A JS `Record<string, AssetBreakdown>`, as an association list in key
insertion order. -/
abbrev Rec := List (Path × AssetBreakdown)

/-- JS `Object.keys`, in insertion order. -/
def keysOf (r : Rec) : List Path := r.map Prod.fst

/-- Property read `r[q]`; `none` models `undefined`. -/
def lookupKey : Rec → Path → Option AssetBreakdown
  | [], _ => none
  | (k, v) :: rest, q => if k = q then some v else lookupKey rest q

/-- Property assignment `r[k] = v`: updates in place when the key exists,
otherwise appends (JS key insertion order). -/
def setKey : Rec → Path → AssetBreakdown → Rec
  | [], k, v => [(k, v)]
  | (k', v') :: rest, k, v =>
    if k' = k then (k, v) :: rest else (k', v') :: setKey rest k v

/-- The running sums accumulated by the `reduce` inside
`recalculateParentTotals`. -/
structure Totals where
  investmentAmount : ℚ
  withdrawalAmount : ℚ
  balanceUnits : ℚ
  marketAmount : ℚ
  gainAmount : ℚ
deriving DecidableEq

/-- The direct-child test used by `recalculateParentTotals`:
`pathParts.length === parentParts.length + 1 && path.startsWith(parentPath + ":")`. -/
def directChildB (parentPath path : Path) : Bool :=
  decide ((splitCh path).length = (splitCh parentPath).length + 1) &&
    startsWithSep parentPath path

/-- The filter `Object.keys(result).filter(...)`: the direct children of `parentPath`
present in `result`. -/
def dcList (result : Rec) (parentPath : Path) : List Path :=
  (keysOf result).filter (fun path => directChildB parentPath path)

/-- One step of the `reduce` inside `recalculateParentTotals`: add a child
entry to the running totals. -/
def childStep (result : Rec) (totals : Totals) (childPath : Path) : Totals :=
  match lookupKey result childPath with
  | some child =>
    { investmentAmount := totals.investmentAmount + child.investmentAmount
      withdrawalAmount := totals.withdrawalAmount + child.withdrawalAmount
      balanceUnits := totals.balanceUnits + child.balanceUnits
      marketAmount := totals.marketAmount + child.marketAmount
      gainAmount := totals.gainAmount + child.gainAmount }
  | none => totals

/-- The `reduce` that sums the five base fields over the direct children. -/
def childTotals (result : Rec) (children : List Path) : Totals :=
  children.foldl (childStep result)
    { investmentAmount := 0, withdrawalAmount := 0, balanceUnits := 0
      marketAmount := 0, gainAmount := 0 }

/-- Sum of one field of the looked-up entries over a list of keys; used to
specify `childTotals`. -/
def fieldSum (r : Rec) (children : List Path) (f : AssetBreakdown → ℚ) : ℚ :=
  (children.map (fun c =>
    match lookupKey r c with
    | some b => f b
    | none => 0)).sum

/-- The parent entry written by `recalculateParentTotals`, including the
derived values guarded against non-positive investment. -/
def mkParentEntry (parentPath : Path) (t : Totals) : AssetBreakdown :=
  { group := parentPath
    investmentAmount := t.investmentAmount
    withdrawalAmount := t.withdrawalAmount
    balanceUnits := t.balanceUnits
    marketAmount := t.marketAmount
    gainAmount := t.gainAmount
    xirr :=
      if 0 < t.investmentAmount then t.gainAmount / t.investmentAmount * 100 else 0
    absoluteReturn :=
      if 0 < t.investmentAmount then
        (t.marketAmount - t.investmentAmount + t.withdrawalAmount) /
          t.investmentAmount * 100
      else 0 }

/-- The body of the bottom-up loop of `recalculateParentTotals` for a single
parent path: when the direct-children list is non-empty, write the parent
entry recomputed from it (`if (directChildren.length > 0)` in the source). -/
def processParent (result : Rec) (parentPath : Path) : Rec :=
  if dcList result parentPath = [] then result
  else
    setKey result parentPath
      (mkParentEntry parentPath (childTotals result (dcList result parentPath)))

/-- JS `Set.prototype.add` on a list kept in insertion order. -/
def addToSet (l : List Path) (p : Path) : List Path :=
  if p ∈ l then l else l ++ [p]

/-- The inner loop of the parent-path collection for one key:
`for (let i = 1; i < parts.length; i++)
parentPaths.add(parts.slice(0, i).join(":"))`. -/
def collectStep (acc : List Path) (path : Path) : List Path :=
  (List.range' 1 ((splitCh path).length - 1)).foldl
    (fun acc2 i => addToSet acc2 (joinSep ((splitCh path).take i))) acc

/-- Collection of every proper prefix path of every key of the record. -/
def collectParentPaths (paths : List Path) : List Path :=
  paths.foldl collectStep []

/-- The parent paths of the keys of `filteredData`, sorted deepest first. -/
def sortedParents (filteredData : Rec) : List Path :=
  sortByDepthDesc (collectParentPaths (keysOf filteredData))

/-- The function `recalculateParentTotals` from
`src/routes/(app)/assets/balance/+page.svelte`. -/
def recalculateParentTotals (filteredData : Rec) : Rec :=
  (sortedParents filteredData).foldl processParent filteredData

/-- Body of the first loop of `applyAccountSelectionFilter`: include all
selected accounts present in the data. -/
def selStep1 (data : Rec) (selected : List Path) (result : Rec) (account : Path) : Rec :=
  if account ∈ selected then
    match lookupKey data account with
    | some v => setKey result account v
    | none => result
  else result

/-- Body of the second loop of `applyAccountSelectionFilter`: include a
non-selected account when some already-visible account extends it after a
colon. -/
def selStep2 (data : Rec) (selected : List Path) (result : Rec) (account : Path) : Rec :=
  if account ∈ selected then result
  else if (keysOf result).any (fun visibleAccount => startsWithSep account visibleAccount) then
    match lookupKey data account with
    | some v => setKey result account v
    | none => result
  else result

/-- The function `applyAccountSelectionFilter` from the assets-balance page: the first
loop over `Object.keys(data)` collects the selected accounts, the second
adds the non-selected accounts with a visible child. -/
def applyAccountSelectionFilter (data : Rec) (selectedLeafAccounts : List Path) : Rec :=
  (keysOf data).foldl (selStep2 data selectedLeafAccounts)
    ((keysOf data).foldl (selStep1 data selectedLeafAccounts) [])

/-- The function `applyFilters` from the assets-balance page: optional empty-market-value
filter (lodash `pickBy`), then account selection, then parent rollup. -/
def applyFilters (data : Rec) (hideEmpty : Bool) (selectedLeafAccounts : List Path) : Rec :=
  let filtered := data
  let filtered :=
    if hideEmpty then filtered.filter (fun kv => decide (kv.2.marketAmount ≠ 0))
    else filtered
  let filtered := applyAccountSelectionFilter filtered selectedLeafAccounts
  recalculateParentTotals filtered

/-- The function `extractLeafAccounts` from the assets-balance page: keys with no other
key extending them after a colon, sorted ascending. -/
def extractLeafAccounts (data : Rec) : List Path :=
  sortLex ((keysOf data).filter (fun account =>
    !((keysOf data).any (fun otherAccount =>
      decide (otherAccount ≠ account) && startsWithSep account otherAccount))))

/-- JS `toLowerCase` applied per character, for the dropdown search. -/
def toLowerPath (p : Path) : Path := p.map Char.toLower

/-- JS `String.prototype.includes(needle)` on character data. -/
def containsSub (needle : Path) : Path → Bool
  | [] => isPre needle []
  | c :: rest => isPre needle (c :: rest) || containsSub needle rest

/-- The reactive `filteredOptions` of `MultiSelectDropdown`: options whose
lower-cased text includes the lower-cased search term. -/
def filteredOptions (options : List Path) (searchTerm : Path) : List Path :=
  options.filter (fun option => containsSub (toLowerPath searchTerm) (toLowerPath option))

/-- The `firstItem` of `clearAll`:
`filteredOptions.length > 0 ? filteredOptions[0] : null`. -/
def firstFilteredItem (options : List Path) (searchTerm : Path) : Option Path :=
  if 0 < (filteredOptions options searchTerm).length then
    some (filteredOptions options searchTerm).headI
  else none

/-- The function `clearAll` of `MultiSelectDropdown`.  `firstItem ? new Set([firstItem])
: new Set()` tests JS truthiness, under which `null` and the empty string
are both falsy. -/
def clearAll (options : List Path) (searchTerm : Path) : List Path :=
  match firstFilteredItem options searchTerm with
  | some s => if s = [] then [] else [s]
  | none => []

/-- The endpoint fetched by the assets-balance page on mount. -/
def balanceEndpoint : List Char := "/api/assets/balance".data

/-- The mutable state of the assets-balance view, plus a log of the HTTP
GET requests it has issued. -/
structure ViewState where
  breakdowns : Rec
  hideEmptyMarketValue : Bool
  selectedAccounts : List Path
  fetchLog : List (List Char)

/-- The events the assets-balance view reacts to. -/
inductive ViewEvent where
  | mount
  | setHideEmpty (b : Bool)
  | accountSelectionChange (sel : List Path)

/-- Modelled from the spec: the Svelte runtime (not part of the sources)
dispatches `onMount` once on view mount and otherwise only forwards user
interactions; each handler body is translated from the component script.
`mount` runs the `onMount` callback (one `ajax("/api/assets/balance")`),
the checkbox binding only flips `hideEmptyMarketValue`, and
`handleAccountSelectionChange` only replaces `selectedAccounts`. -/
def viewStep (fetched : Rec) (s : ViewState) : ViewEvent → ViewState
  | ViewEvent.mount =>
    { s with breakdowns := fetched, fetchLog := s.fetchLog ++ [balanceEndpoint] }
  | ViewEvent.setHideEmpty b => { s with hideEmptyMarketValue := b }
  | ViewEvent.accountSelectionChange sel => { s with selectedAccounts := sel }

/-- Run the view over a sequence of events. -/
def runView (fetched : Rec) (s : ViewState) (evs : List ViewEvent) : ViewState :=
  evs.foldl (viewStep fetched) s

/-- The initial state of the view (before mount). -/
def viewInit : ViewState :=
  { breakdowns := [], hideEmptyMarketValue := false, selectedAccounts := [], fetchLog := [] }

/-- Number of mount events in a trace. -/
def mountCount (evs : List ViewEvent) : Nat :=
  (evs.filter (fun e =>
    match e with
    | ViewEvent.mount => true
    | _ => false)).length

/-- The reactive `filteredBreakdowns` derived from the view state. -/
def visibleBreakdowns (s : ViewState) : Rec :=
  applyFilters s.breakdowns s.hideEmptyMarketValue s.selectedAccounts

/-- A sample leaf entry used by concrete evaluations. -/
def bdAB : AssetBreakdown :=
  { group := "a:b".data, investmentAmount := 10, withdrawalAmount := 1
    balanceUnits := 2, marketAmount := 20, gainAmount := 5, xirr := 50
    absoluteReturn := 110 }

/-- A second sample leaf entry. -/
def bdAC : AssetBreakdown :=
  { group := "a:c".data, investmentAmount := 30, withdrawalAmount := 3
    balanceUnits := 4, marketAmount := 40, gainAmount := 15, xirr := 50
    absoluteReturn := 40 }

/-- A sample record with two sibling leaves under a common parent. -/
def dataW : Rec := [("a:b".data, bdAB), ("a:c".data, bdAC)]

/-- The same record with its keys enumerated in the other order. -/
def dataWrev : Rec := [("a:c".data, bdAC), ("a:b".data, bdAB)]

/-- A sample selection. -/
def selW : List Path := ["a:b".data]

/-- A sample record whose keys carry no separator. -/
def dataFlat : Rec := [("x".data, bdAB), ("y".data, bdAC)]

/-- Invariant carried through the bottom-up loop of
`recalculateParentTotals`: after processing the parent paths in `procd`,
the keys are the original keys plus `procd`, unprocessed keys still hold
their original entries, and every processed path holds the freshly summed
parent entry over its direct children in the current record. -/
structure RecInv (I : Rec) (procd : List Path) (r : Rec) : Prop where
  nodup : (keysOf r).Nodup
  keys_iff : ∀ q, q ∈ keysOf r ↔ q ∈ keysOf I ∨ q ∈ procd
  val_old : ∀ q, q ∉ procd → lookupKey r q = lookupKey I q
  val_new : ∀ q, q ∈ procd →
    lookupKey r q = some (mkParentEntry q (childTotals r (dcList r q)))

/-! ### Generic fold helper -/

theorem foldl_pres {σ α : Type _} (P : σ → Prop) (step : σ → α → σ)
    (h : ∀ s x, P s → P (step s x)) :
    ∀ (l : List α) (s : σ), P s → P (l.foldl step s)
  | [], _, hs => hs
  | x :: xs, s, hs => foldl_pres P step h xs (step s x) (h s x hs)

/-! ### Splitting and joining on the separator -/

theorem splitCh_ne_nil (l : Path) : splitCh l ≠ [] := by
  induction l with
  | nil => simp [splitCh]
  | cons c cs ih =>
    simp only [splitCh]
    by_cases h : c = sep
    · simp [h]
    · simp only [if_neg h]
      cases hs : splitCh cs with
      | nil => simp
      | cons s ss => simp

theorem splitCh_length_pos (l : Path) : 0 < (splitCh l).length :=
  List.length_pos.mpr (splitCh_ne_nil l)

theorem splitCh_cons_sep (cs : Path) : splitCh (sep :: cs) = [] :: splitCh cs := by
  simp [splitCh]

theorem splitCh_cons_ne {c : Char} (h : c ≠ sep) {cs : Path} {t : Path} {ts : List Path}
    (hs : splitCh cs = t :: ts) : splitCh (c :: cs) = (c :: t) :: ts := by
  simp [splitCh, h, hs]

theorem splitCh_append_sep (x y : Path) :
    splitCh (x ++ sep :: y) = splitCh x ++ splitCh y := by
  induction x with
  | nil => simp [splitCh]
  | cons c cs ih =>
    by_cases h : c = sep
    · simp [splitCh, h, ih]
    · rw [List.cons_append]
      simp only [splitCh, if_neg h, ih]
      cases hs : splitCh cs with
      | nil => exact absurd hs (splitCh_ne_nil cs)
      | cons s ss => simp

theorem not_sep_of_mem_splitCh : ∀ (l : Path), ∀ s ∈ splitCh l, sep ∉ s := by
  intro l
  induction l with
  | nil => simp [splitCh]
  | cons c cs ih =>
    intro s hs
    by_cases h : c = sep
    · subst h
      rw [splitCh_cons_sep] at hs
      rcases List.mem_cons.mp hs with rfl | hs
      · simp
      · exact ih s hs
    · rcases hsp : splitCh cs with _ | ⟨t, ts⟩
      · exact absurd hsp (splitCh_ne_nil cs)
      · rw [splitCh_cons_ne h hsp] at hs
        rcases List.mem_cons.mp hs with rfl | hs
        · intro hmem
          rcases List.mem_cons.mp hmem with hc | hc
          · exact h hc.symm
          · exact ih t (by rw [hsp]; exact List.mem_cons_self _ _) hc
        · exact ih s (by rw [hsp]; exact List.mem_cons_of_mem _ hs)

theorem joinSep_cons_cons (s t : Path) (ss : List Path) :
    joinSep (s :: t :: ss) = s ++ sep :: joinSep (t :: ss) := rfl

theorem joinSep_head (c : Char) (s : Path) (ss : List Path) :
    joinSep ((c :: s) :: ss) = c :: joinSep (s :: ss) := by
  cases ss <;> rfl

theorem joinSep_splitCh (l : Path) : joinSep (splitCh l) = l := by
  induction l with
  | nil => rfl
  | cons c cs ih =>
    by_cases h : c = sep
    · subst h
      rw [splitCh_cons_sep]
      cases hs : splitCh cs with
      | nil => exact absurd hs (splitCh_ne_nil cs)
      | cons s ss =>
        rw [joinSep_cons_cons]
        simp only [List.nil_append]
        rw [← hs, ih]
    · cases hs : splitCh cs with
      | nil => exact absurd hs (splitCh_ne_nil cs)
      | cons s ss =>
        rw [splitCh_cons_ne h hs, joinSep_head, ← hs, ih]

theorem joinSep_append (A B : List Path) (hA : A ≠ []) (hB : B ≠ []) :
    joinSep (A ++ B) = joinSep A ++ sep :: joinSep B := by
  induction A with
  | nil => exact absurd rfl hA
  | cons a A' ih =>
    cases A' with
    | nil =>
      cases B with
      | nil => exact absurd rfl hB
      | cons b B' => rfl
    | cons a' A'' =>
      rw [show (a :: a' :: A'') ++ B = a :: a' :: (A'' ++ B) from rfl, joinSep_cons_cons,
        show a' :: (A'' ++ B) = (a' :: A'') ++ B from rfl, ih (by simp), joinSep_cons_cons]
      simp

theorem splitCh_of_not_mem (l : Path) (h : sep ∉ l) : splitCh l = [l] := by
  induction l with
  | nil => rfl
  | cons c cs ih =>
    have hc : c ≠ sep := fun hc => h (by simp [hc])
    have hcs : sep ∉ cs := fun hm => h (by simp [hm])
    simp [splitCh, hc, ih hcs]

theorem splitCh_joinSep (A : List Path) (hA : A ≠ []) (h : ∀ s ∈ A, sep ∉ s) :
    splitCh (joinSep A) = A := by
  induction A with
  | nil => exact absurd rfl hA
  | cons a A' ih =>
    cases A' with
    | nil => exact splitCh_of_not_mem a (h a (by simp))
    | cons a' A'' =>
      rw [joinSep_cons_cons, splitCh_append_sep, splitCh_of_not_mem a (h a (by simp)),
        ih (by simp) (fun s hs => h s (by simp [hs]))]
      rfl

/-! ### The string ancestor relation -/

theorem isPre_iff (a b : Path) : isPre a b = true ↔ ∃ r, b = a ++ r := by
  induction a generalizing b with
  | nil => simp [isPre]
  | cons x xs ih =>
    cases b with
    | nil => simp [isPre]
    | cons y ys =>
      by_cases h : x = y
      · subst h
        simp [isPre, ih]
      · simp only [isPre, if_neg h]
        constructor
        · intro hfalse
          simp at hfalse
        · rintro ⟨r, hr⟩
          rw [List.cons_append] at hr
          injection hr with h1 h2
          exact absurd h1.symm h

theorem startsWithSep_iff (p k : Path) :
    startsWithSep p k = true ↔ ∃ r, k = p ++ sep :: r := by
  unfold startsWithSep
  rw [isPre_iff]
  constructor
  · rintro ⟨r, rfl⟩
    exact ⟨r, by simp⟩
  · rintro ⟨r, rfl⟩
    exact ⟨r, by simp⟩

theorem startsWithSep_split (p k : Path) :
    startsWithSep p k = true ↔ ∃ t, t ≠ [] ∧ splitCh k = splitCh p ++ t := by
  rw [startsWithSep_iff]
  constructor
  · rintro ⟨r, rfl⟩
    exact ⟨splitCh r, splitCh_ne_nil r, splitCh_append_sep p r⟩
  · rintro ⟨t, ht, hsp⟩
    refine ⟨joinSep t, ?_⟩
    have := joinSep_splitCh k
    rw [hsp, joinSep_append _ _ (splitCh_ne_nil p) ht, joinSep_splitCh] at this
    exact this.symm

theorem startsWithSep_trans {p q k : Path}
    (h1 : startsWithSep p q = true) (h2 : startsWithSep q k = true) :
    startsWithSep p k = true := by
  obtain ⟨r1, rfl⟩ := (startsWithSep_iff p q).mp h1
  obtain ⟨r2, rfl⟩ := (startsWithSep_iff _ k).mp h2
  exact (startsWithSep_iff p _).mpr ⟨r1 ++ sep :: r2, by simp⟩

theorem depth_lt_of_startsWithSep {p k : Path} (h : startsWithSep p k = true) :
    (splitCh p).length < (splitCh k).length := by
  obtain ⟨t, ht, hsp⟩ := (startsWithSep_split p k).mp h
  rw [hsp, List.length_append]
  have : 0 < t.length := List.length_pos.mpr ht
  omega

theorem directChildB_iff (p k : Path) :
    directChildB p k = true ↔ ∃ s, splitCh k = splitCh p ++ [s] := by
  unfold directChildB
  rw [Bool.and_eq_true, decide_eq_true_eq]
  constructor
  · rintro ⟨hlen, hsw⟩
    obtain ⟨t, ht, hsp⟩ := (startsWithSep_split p k).mp hsw
    have : t.length = 1 := by
      rw [hsp, List.length_append] at hlen
      omega
    obtain ⟨s, rfl⟩ := List.length_eq_one.mp this
    exact ⟨s, hsp⟩
  · rintro ⟨s, hsp⟩
    refine ⟨by rw [hsp]; simp, (startsWithSep_split p k).mpr ⟨[s], by simp, hsp⟩⟩

theorem directChildB_self (p : Path) : directChildB p p = false := by
  cases h : directChildB p p with
  | false => rfl
  | true =>
    obtain ⟨s, hs⟩ := (directChildB_iff p p).mp h
    have := congrArg List.length hs
    simp at this

theorem startsWithSep_of_directChildB {p k : Path} (h : directChildB p k = true) :
    startsWithSep p k = true := by
  simp only [directChildB, Bool.and_eq_true, decide_eq_true_eq] at h
  exact h.2

theorem depth_of_directChildB {p k : Path} (h : directChildB p k = true) :
    (splitCh k).length = (splitCh p).length + 1 := by
  simp only [directChildB, Bool.and_eq_true, decide_eq_true_eq] at h
  exact h.1

theorem splitCh_take_spec (k : Path) (i : ℕ) (h1 : 1 ≤ i)
    (h2 : i < (splitCh k).length) :
    splitCh (joinSep ((splitCh k).take i)) = (splitCh k).take i ∧
      startsWithSep (joinSep ((splitCh k).take i)) k = true := by
  have htake : (splitCh k).take i ≠ [] := by
    have : ((splitCh k).take i).length = i := by
      rw [List.length_take]
      omega
    intro hnil
    rw [hnil] at this
    simp at this
    omega
  have hfree : ∀ s ∈ (splitCh k).take i, sep ∉ s := fun s hs =>
    not_sep_of_mem_splitCh k s (List.mem_of_mem_take hs)
  have hsplit := splitCh_joinSep _ htake hfree
  refine ⟨hsplit, (startsWithSep_split _ k).mpr ⟨(splitCh k).drop i, ?_, ?_⟩⟩
  · intro hnil
    have := congrArg List.length hnil
    rw [List.length_drop] at this
    simp at this
    omega
  · rw [hsplit, List.take_append_drop]

theorem anc_eq_take {p k : Path} (h : startsWithSep p k = true) :
    p = joinSep ((splitCh k).take (splitCh p).length) ∧
      (splitCh p).length < (splitCh k).length := by
  obtain ⟨t, ht, hsp⟩ := (startsWithSep_split p k).mp h
  constructor
  · rw [hsp, List.take_left, joinSep_splitCh]
  · exact depth_lt_of_startsWithSep h

theorem childToward {p k : Path} (h : startsWithSep p k = true) :
    ∃ c, directChildB p c = true ∧ (c = k ∨ startsWithSep c k = true) := by
  obtain ⟨t, ht, hsp⟩ := (startsWithSep_split p k).mp h
  cases t with
  | nil => exact absurd rfl ht
  | cons s t' =>
    have hfree : ∀ x ∈ splitCh p ++ [s], sep ∉ x := by
      intro x hx
      rcases List.mem_append.mp hx with hx | hx
      · exact not_sep_of_mem_splitCh p x hx
      · have : x = s := by simpa using hx
        subst this
        exact not_sep_of_mem_splitCh k x (by rw [hsp]; simp)
    have hsplit : splitCh (joinSep (splitCh p ++ [s])) = splitCh p ++ [s] :=
      splitCh_joinSep _ (by simp) hfree
    refine ⟨joinSep (splitCh p ++ [s]), (directChildB_iff _ _).mpr ⟨s, hsplit⟩, ?_⟩
    cases t' with
    | nil =>
      left
      have : splitCh k = splitCh p ++ [s] := hsp
      rw [← joinSep_splitCh k, this]
    | cons u t'' =>
      right
      refine (startsWithSep_split _ k).mpr ⟨u :: t'', by simp, ?_⟩
      rw [hsplit, hsp]
      simp

/-! ### The two sorts -/

theorem insertByDepth_perm (p : Path) (l : List Path) :
    List.Perm (insertByDepth p l) (p :: l) := by
  induction l with
  | nil => exact List.Perm.refl _
  | cons q qs ih =>
    unfold insertByDepth
    by_cases h : (splitCh q).length < (splitCh p).length
    · rw [if_pos h]
    · rw [if_neg h]
      exact (ih.cons q).trans (List.Perm.swap p q qs)

theorem sortByDepthDesc_perm (l : List Path) :
    List.Perm (sortByDepthDesc l) l := by
  induction l with
  | nil => exact List.Perm.refl _
  | cons p ps ih =>
    exact (insertByDepth_perm p (sortByDepthDesc ps)).trans (ih.cons p)

theorem insertByDepth_pairwise (p : Path) (l : List Path)
    (h : l.Pairwise (fun a b => (splitCh b).length ≤ (splitCh a).length)) :
    (insertByDepth p l).Pairwise (fun a b => (splitCh b).length ≤ (splitCh a).length) := by
  induction l with
  | nil => simp [insertByDepth]
  | cons q qs ih =>
    rw [List.pairwise_cons] at h
    obtain ⟨hq, hqs⟩ := h
    unfold insertByDepth
    by_cases hlt : (splitCh q).length < (splitCh p).length
    · rw [if_pos hlt]
      refine List.Pairwise.cons ?_ (List.Pairwise.cons hq hqs)
      intro b hb
      rcases List.mem_cons.mp hb with rfl | hb
      · omega
      · have := hq b hb
        omega
    · rw [if_neg hlt]
      refine List.Pairwise.cons ?_ (ih hqs)
      intro b hb
      have hb' : b = p ∨ b ∈ qs := by
        have := (insertByDepth_perm p qs).mem_iff.mp hb
        simpa using this
      rcases hb' with rfl | hb'
      · omega
      · exact hq b hb'

theorem sortByDepthDesc_pairwise (l : List Path) :
    (sortByDepthDesc l).Pairwise (fun a b => (splitCh b).length ≤ (splitCh a).length) := by
  induction l with
  | nil => simp [sortByDepthDesc]
  | cons p ps ih => exact insertByDepth_pairwise p _ ih

theorem lexLe_total (a b : Path) : lexLe a b = true ∨ lexLe b a = true := by
  induction a generalizing b with
  | nil => left; rfl
  | cons x xs ih =>
    cases b with
    | nil => right; rfl
    | cons y ys =>
      rcases lt_trichotomy x y with h | h | h
      · left
        simp [lexLe, h]
      · subst h
        rcases ih ys with h' | h'
        · left
          simp [lexLe, lt_irrefl, h']
        · right
          simp [lexLe, lt_irrefl, h']
      · right
        simp [lexLe, h]

theorem lexLe_trans {a b c : Path} (h1 : lexLe a b = true) (h2 : lexLe b c = true) :
    lexLe a c = true := by
  induction a generalizing b c with
  | nil => rfl
  | cons x xs ih =>
    cases b with
    | nil => simp [lexLe] at h1
    | cons y ys =>
      cases c with
      | nil => simp [lexLe] at h2
      | cons z zs =>
        by_cases hxy : x < y
        · by_cases hyz : y < z
          · simp [lexLe, lt_trans hxy hyz]
          · by_cases hzy : z < y
            · simp [lexLe, hyz, hzy] at h2
            · have : y = z := le_antisymm (not_lt.mp hzy) (not_lt.mp hyz)
              subst this
              simp [lexLe, hxy]
        · by_cases hyx : y < x
          · simp [lexLe, hxy, hyx] at h1
          · have hxy' : x = y := le_antisymm (not_lt.mp hyx) (not_lt.mp hxy)
            subst hxy'
            simp only [lexLe, if_neg (lt_irrefl x)] at h1
            by_cases hxz : x < z
            · simp [lexLe, hxz]
            · by_cases hzx : z < x
              · simp [lexLe, hxz, hzx] at h2
              · have : x = z := le_antisymm (not_lt.mp hzx) (not_lt.mp hxz)
                subst this
                simp only [lexLe, if_neg (lt_irrefl x)] at h2 ⊢
                exact ih h1 h2

theorem insertLex_perm (a : Path) (l : List Path) :
    List.Perm (insertLex a l) (a :: l) := by
  induction l with
  | nil => exact List.Perm.refl _
  | cons b bs ih =>
    unfold insertLex
    by_cases h : lexLe b a = true
    · rw [if_pos h]
      exact (ih.cons b).trans (List.Perm.swap a b bs)
    · rw [if_neg h]

theorem sortLex_perm (l : List Path) : List.Perm (sortLex l) l := by
  induction l with
  | nil => exact List.Perm.refl _
  | cons p ps ih =>
    exact (insertLex_perm p (sortLex ps)).trans (ih.cons p)

theorem insertLex_pairwise (a : Path) (l : List Path)
    (h : l.Pairwise (fun x y => lexLe x y = true)) :
    (insertLex a l).Pairwise (fun x y => lexLe x y = true) := by
  induction l with
  | nil => simp [insertLex]
  | cons b bs ih =>
    rw [List.pairwise_cons] at h
    obtain ⟨hb, hbs⟩ := h
    unfold insertLex
    by_cases hba : lexLe b a = true
    · rw [if_pos hba]
      refine List.Pairwise.cons ?_ (ih hbs)
      intro x hx
      have hx' : x = a ∨ x ∈ bs := by
        have := (insertLex_perm a bs).mem_iff.mp hx
        simpa using this
      rcases hx' with rfl | hx'
      · exact hba
      · exact hb x hx'
    · rw [if_neg hba]
      have hab : lexLe a b = true := by
        rcases lexLe_total a b with h' | h'
        · exact h'
        · exact absurd h' hba
      refine List.Pairwise.cons ?_ (List.Pairwise.cons hb hbs)
      intro x hx
      rcases List.mem_cons.mp hx with rfl | hx
      · exact hab
      · exact lexLe_trans hab (hb x hx)

theorem sortLex_pairwise (l : List Path) :
    (sortLex l).Pairwise (fun x y => lexLe x y = true) := by
  induction l with
  | nil => simp [sortLex]
  | cons p ps ih => exact insertLex_pairwise p _ ih

/-! ### Record (association list) operations -/

theorem keysOf_nil : keysOf [] = [] := rfl

theorem keysOf_cons (k : Path) (v : AssetBreakdown) (r : Rec) :
    keysOf ((k, v) :: r) = k :: keysOf r := rfl

theorem lookupKey_cons (k : Path) (v : AssetBreakdown) (r : Rec) (q : Path) :
    lookupKey ((k, v) :: r) q = if k = q then some v else lookupKey r q := rfl

theorem setKey_cons (k' : Path) (v' : AssetBreakdown) (r : Rec) (k : Path)
    (v : AssetBreakdown) :
    setKey ((k', v') :: r) k v =
      if k' = k then (k, v) :: r else (k', v') :: setKey r k v := rfl

theorem lookupKey_isSome (r : Rec) (q : Path) :
    (lookupKey r q).isSome = true ↔ q ∈ keysOf r := by
  induction r with
  | nil => simp [lookupKey, keysOf]
  | cons kv rest ih =>
    obtain ⟨k, v⟩ := kv
    rw [lookupKey_cons, keysOf_cons, List.mem_cons]
    by_cases h : k = q
    · rw [if_pos h]
      simp [h.symm]
    · rw [if_neg h, ih]
      have : ¬ q = k := fun hq => h hq.symm
      simp [this]

theorem lookupKey_eq_none (r : Rec) (q : Path) :
    lookupKey r q = none ↔ q ∉ keysOf r := by
  rw [← lookupKey_isSome]
  cases lookupKey r q <;> simp

theorem keysOf_setKey (r : Rec) (k : Path) (v : AssetBreakdown) :
    keysOf (setKey r k v) = if k ∈ keysOf r then keysOf r else keysOf r ++ [k] := by
  induction r with
  | nil => simp [setKey, keysOf]
  | cons kv rest ih =>
    obtain ⟨k', v'⟩ := kv
    rw [setKey_cons]
    by_cases h : k' = k
    · rw [if_pos h, keysOf_cons, keysOf_cons]
      subst h
      simp
    · rw [if_neg h, keysOf_cons, keysOf_cons, ih]
      have hne : ¬ k = k' := fun hk => h hk.symm
      by_cases hm : k ∈ keysOf rest
      · simp [hm, hne]
      · simp [hm, hne]

theorem mem_keysOf_setKey (r : Rec) (k : Path) (v : AssetBreakdown) (q : Path) :
    q ∈ keysOf (setKey r k v) ↔ q ∈ keysOf r ∨ q = k := by
  rw [keysOf_setKey]
  by_cases h : k ∈ keysOf r
  · rw [if_pos h]
    constructor
    · exact Or.inl
    · rintro (hq | rfl)
      · exact hq
      · exact h
  · rw [if_neg h]
    simp

theorem keysOf_setKey_of_mem {r : Rec} {k : Path} (v : AssetBreakdown)
    (h : k ∈ keysOf r) : keysOf (setKey r k v) = keysOf r := by
  rw [keysOf_setKey, if_pos h]

theorem lookupKey_setKey_self (r : Rec) (k : Path) (v : AssetBreakdown) :
    lookupKey (setKey r k v) k = some v := by
  induction r with
  | nil => simp [setKey, lookupKey]
  | cons kv rest ih =>
    obtain ⟨k', v'⟩ := kv
    rw [setKey_cons]
    by_cases h : k' = k
    · rw [if_pos h, lookupKey_cons, if_pos rfl]
    · rw [if_neg h, lookupKey_cons, if_neg h, ih]

theorem lookupKey_setKey_ne (r : Rec) (k : Path) (v : AssetBreakdown) {q : Path}
    (h : q ≠ k) : lookupKey (setKey r k v) q = lookupKey r q := by
  induction r with
  | nil =>
    show lookupKey [(k, v)] q = none
    rw [lookupKey_cons, if_neg (fun hk : k = q => h hk.symm)]
    rfl
  | cons kv rest ih =>
    obtain ⟨k', v'⟩ := kv
    rw [setKey_cons]
    by_cases hk : k' = k
    · subst hk
      rw [if_pos rfl, lookupKey_cons, lookupKey_cons,
        if_neg (fun hq : k' = q => h hq.symm), if_neg (fun hq : k' = q => h hq.symm)]
    · rw [if_neg hk, lookupKey_cons, lookupKey_cons]
      by_cases hq : k' = q
      · rw [if_pos hq, if_pos hq]
      · rw [if_neg hq, if_neg hq, ih]

theorem nodup_keysOf_setKey {r : Rec} (k : Path) (v : AssetBreakdown)
    (h : (keysOf r).Nodup) : (keysOf (setKey r k v)).Nodup := by
  rw [keysOf_setKey]
  by_cases hm : k ∈ keysOf r
  · rw [if_pos hm]
    exact h
  · rw [if_neg hm]
    simp [List.nodup_append, h, hm]

theorem lookupKey_eq_some_iff {r : Rec} (h : (keysOf r).Nodup) (q : Path)
    (v : AssetBreakdown) : lookupKey r q = some v ↔ (q, v) ∈ r := by
  induction r with
  | nil => simp [lookupKey]
  | cons kv rest ih =>
    obtain ⟨k, w⟩ := kv
    rw [keysOf_cons, List.nodup_cons] at h
    rw [lookupKey_cons]
    by_cases hk : k = q
    · subst hk
      rw [if_pos rfl]
      simp only [List.mem_cons, Option.some.injEq, Prod.mk.injEq]
      constructor
      · rintro rfl
        exact Or.inl (by simp)
      · rintro (⟨-, rfl⟩ | hmem)
        · rfl
        · exact absurd (List.mem_map_of_mem Prod.fst hmem) h.1
    · rw [if_neg hk]
      simp only [List.mem_cons, Prod.mk.injEq]
      rw [ih h.2]
      constructor
      · exact Or.inr
      · rintro (⟨rfl, -⟩ | hmem)
        · exact absurd rfl hk
        · exact hmem

theorem lookupKey_perm {r₁ r₂ : Rec} (h : List.Perm r₁ r₂)
    (hnd : (keysOf r₁).Nodup) (q : Path) : lookupKey r₁ q = lookupKey r₂ q := by
  have hnd₂ : (keysOf r₂).Nodup := (h.map Prod.fst).nodup_iff.mp hnd
  cases hl : lookupKey r₁ q with
  | none =>
    rw [lookupKey_eq_none] at hl
    have : q ∉ keysOf r₂ := fun hm => hl ((h.map Prod.fst).mem_iff.mpr hm)
    exact ((lookupKey_eq_none r₂ q).mpr this).symm
  | some v =>
    rw [lookupKey_eq_some_iff hnd] at hl
    exact ((lookupKey_eq_some_iff hnd₂ q v).mpr (h.mem_iff.mp hl)).symm

theorem rec_ext : ∀ (r₁ r₂ : Rec), keysOf r₁ = keysOf r₂ → (keysOf r₁).Nodup →
    (∀ q, lookupKey r₁ q = lookupKey r₂ q) → r₁ = r₂ := by
  intro r₁
  induction r₁ with
  | nil =>
    intro r₂ hk _ _
    cases r₂ with
    | nil => rfl
    | cons kv rest => simp [keysOf] at hk
  | cons kv t ih =>
    intro r₂ hk hnd hl
    obtain ⟨k, v⟩ := kv
    cases r₂ with
    | nil => simp [keysOf] at hk
    | cons kv₂ t₂ =>
      obtain ⟨k₂, v₂⟩ := kv₂
      rw [keysOf_cons, keysOf_cons] at hk
      injection hk with hk1 hk2
      subst hk1
      rw [keysOf_cons, List.nodup_cons] at hnd
      have hv : v = v₂ := by
        have := hl k
        rw [lookupKey_cons, lookupKey_cons, if_pos rfl, if_pos rfl] at this
        exact Option.some.inj this
      subst hv
      have ht : t = t₂ := by
        refine ih t₂ hk2 hnd.2 (fun q => ?_)
        by_cases hq : q = k
        · subst hq
          rw [(lookupKey_eq_none t q).mpr hnd.1,
            ((lookupKey_eq_none t₂ q).mpr (hk2 ▸ hnd.1))]
        · have := hl q
          rw [lookupKey_cons, lookupKey_cons, if_neg (fun h : k = q => hq h.symm),
            if_neg (fun h : k = q => hq h.symm)] at this
          exact this
      rw [ht]

/-! ### The child sums -/

theorem fieldSum_nil (r : Rec) (f : AssetBreakdown → ℚ) : fieldSum r [] f = 0 := rfl

theorem fieldSum_cons (r : Rec) (c : Path) (L : List Path) (f : AssetBreakdown → ℚ) :
    fieldSum r (c :: L) f =
      (match lookupKey r c with
       | some b => f b
       | none => 0) + fieldSum r L f := by
  simp [fieldSum]

theorem childTotals_go (r : Rec) : ∀ (L : List Path) (t : Totals),
    L.foldl (childStep r) t =
      { investmentAmount := t.investmentAmount + fieldSum r L (fun b => b.investmentAmount)
        withdrawalAmount := t.withdrawalAmount + fieldSum r L (fun b => b.withdrawalAmount)
        balanceUnits := t.balanceUnits + fieldSum r L (fun b => b.balanceUnits)
        marketAmount := t.marketAmount + fieldSum r L (fun b => b.marketAmount)
        gainAmount := t.gainAmount + fieldSum r L (fun b => b.gainAmount) } := by
  intro L
  induction L with
  | nil =>
    intro t
    cases t
    simp [fieldSum]
  | cons c L ih =>
    intro t
    rw [List.foldl_cons, ih]
    cases t
    unfold childStep
    cases hlc : lookupKey r c with
    | some b => simp [fieldSum_cons, hlc, add_assoc]
    | none => simp [fieldSum_cons, hlc]

theorem childTotals_eq (r : Rec) (L : List Path) :
    childTotals r L =
      { investmentAmount := fieldSum r L (fun b => b.investmentAmount)
        withdrawalAmount := fieldSum r L (fun b => b.withdrawalAmount)
        balanceUnits := fieldSum r L (fun b => b.balanceUnits)
        marketAmount := fieldSum r L (fun b => b.marketAmount)
        gainAmount := fieldSum r L (fun b => b.gainAmount) } := by
  unfold childTotals
  rw [childTotals_go]
  simp

theorem fieldSum_congr {r r' : Rec} {L L' : List Path} (hL : List.Perm L L')
    (h : ∀ c ∈ L, lookupKey r c = lookupKey r' c) (f : AssetBreakdown → ℚ) :
    fieldSum r L f = fieldSum r' L' f := by
  unfold fieldSum
  have hmap : L.map (fun c =>
      (match lookupKey r c with
       | some b => f b
       | none => 0)) = L.map (fun c =>
      (match lookupKey r' c with
       | some b => f b
       | none => 0)) := by
    refine List.map_congr_left (fun c hc => ?_)
    rw [h c hc]
  rw [hmap]
  exact (hL.map _).sum_eq

theorem childTotals_congr {r r' : Rec} {L L' : List Path} (hL : List.Perm L L')
    (h : ∀ c ∈ L, lookupKey r c = lookupKey r' c) :
    childTotals r L = childTotals r' L' := by
  rw [childTotals_eq, childTotals_eq]
  simp only [Totals.mk.injEq]
  exact ⟨fieldSum_congr hL h _, fieldSum_congr hL h _, fieldSum_congr hL h _,
    fieldSum_congr hL h _, fieldSum_congr hL h _⟩

/-! ### The collected parent paths -/

theorem mem_addToSet (l : List Path) (p a : Path) : a ∈ addToSet l p ↔ a ∈ l ∨ a = p := by
  unfold addToSet
  by_cases h : p ∈ l
  · rw [if_pos h]
    constructor
    · exact Or.inl
    · rintro (h' | rfl)
      · exact h'
      · exact h
  · rw [if_neg h]
    simp

theorem nodup_addToSet (l : List Path) (p : Path) (h : l.Nodup) :
    (addToSet l p).Nodup := by
  unfold addToSet
  by_cases hm : p ∈ l
  · rw [if_pos hm]
    exact h
  · rw [if_neg hm]
    simp [List.nodup_append, h, hm]

theorem mem_foldl_addToSet (g : ℕ → Path) :
    ∀ (is : List ℕ) (acc : List Path) (a : Path),
      a ∈ is.foldl (fun acc2 i => addToSet acc2 (g i)) acc ↔
        a ∈ acc ∨ ∃ i ∈ is, a = g i := by
  intro is
  induction is with
  | nil => simp
  | cons i is ih =>
    intro acc a
    rw [List.foldl_cons, ih, mem_addToSet]
    constructor
    · rintro ((h | h) | ⟨j, hj, rfl⟩)
      · exact Or.inl h
      · exact Or.inr ⟨i, by simp, h⟩
      · exact Or.inr ⟨j, by simp [hj], rfl⟩
    · rintro (h | ⟨j, hj, rfl⟩)
      · exact Or.inl (Or.inl h)
      · rcases List.mem_cons.mp hj with rfl | hj'
        · exact Or.inl (Or.inr rfl)
        · exact Or.inr ⟨j, hj', rfl⟩

theorem mem_collectStep (acc : List Path) (path : Path) (a : Path) :
    a ∈ collectStep acc path ↔
      a ∈ acc ∨ ∃ i ∈ List.range' 1 ((splitCh path).length - 1),
        a = joinSep ((splitCh path).take i) := by
  unfold collectStep
  exact mem_foldl_addToSet _ _ acc a

theorem nodup_collectStep (acc : List Path) (path : Path) (h : acc.Nodup) :
    (collectStep acc path).Nodup := by
  unfold collectStep
  exact foldl_pres List.Nodup _ (fun s x hs => nodup_addToSet s _ hs) _ acc h

theorem anc_iff_take (a k : Path) :
    startsWithSep a k = true ↔
      ∃ i ∈ List.range' 1 ((splitCh k).length - 1), a = joinSep ((splitCh k).take i) := by
  constructor
  · intro h
    obtain ⟨heq, hlt⟩ := anc_eq_take h
    refine ⟨(splitCh a).length, ?_, heq⟩
    rw [List.mem_range'_1]
    have := splitCh_length_pos a
    have := splitCh_length_pos k
    omega
  · rintro ⟨i, hi, rfl⟩
    rw [List.mem_range'_1] at hi
    have hk := splitCh_length_pos k
    exact (splitCh_take_spec k i hi.1 (by omega)).2

theorem mem_collectParentPaths (paths : List Path) (a : Path) :
    a ∈ collectParentPaths paths ↔ ∃ k ∈ paths, startsWithSep a k = true := by
  unfold collectParentPaths
  suffices h : ∀ (ps : List Path) (acc : List Path),
      a ∈ ps.foldl collectStep acc ↔
        a ∈ acc ∨ ∃ k ∈ ps, startsWithSep a k = true by
    rw [h paths []]
    simp
  intro ps
  induction ps with
  | nil => simp
  | cons k ks ih =>
    intro acc
    rw [List.foldl_cons, ih, mem_collectStep]
    constructor
    · rintro ((h | h) | ⟨k', hk', hsw⟩)
      · exact Or.inl h
      · exact Or.inr ⟨k, by simp, (anc_iff_take a k).mpr h⟩
      · exact Or.inr ⟨k', by simp [hk'], hsw⟩
    · rintro (h | ⟨k', hk', hsw⟩)
      · exact Or.inl (Or.inl h)
      · rcases List.mem_cons.mp hk' with rfl | hk''
        · exact Or.inl (Or.inr ((anc_iff_take a k').mp hsw))
        · exact Or.inr ⟨k', hk'', hsw⟩

theorem nodup_collectParentPaths (paths : List Path) :
    (collectParentPaths paths).Nodup := by
  unfold collectParentPaths
  exact foldl_pres List.Nodup collectStep (fun s x hs => nodup_collectStep s x hs) paths []
    List.nodup_nil

theorem mem_sortedParents (I : Rec) (p : Path) :
    p ∈ sortedParents I ↔ ∃ k ∈ keysOf I, startsWithSep p k = true := by
  unfold sortedParents
  rw [(sortByDepthDesc_perm _).mem_iff]
  exact mem_collectParentPaths _ p

theorem nodup_sortedParents (I : Rec) : (sortedParents I).Nodup := by
  unfold sortedParents
  exact ((sortByDepthDesc_perm _).nodup_iff).mpr (nodup_collectParentPaths _)

theorem pairwise_sortedParents (I : Rec) :
    (sortedParents I).Pairwise (fun a b => (splitCh b).length ≤ (splitCh a).length) :=
  sortByDepthDesc_pairwise _

/-! ### The account selection filter -/

theorem foldl_selStep1_lookup (data : Rec) (sel : List Path) :
    ∀ (ks : List Path) (acc : Rec) (a : Path),
      lookupKey (ks.foldl (selStep1 data sel) acc) a =
        if a ∈ ks ∧ a ∈ sel ∧ (lookupKey data a).isSome = true then lookupKey data a
        else lookupKey acc a := by
  intro ks
  induction ks with
  | nil =>
    intro acc a
    simp
  | cons k ks ih =>
    intro acc a
    have hstep : lookupKey (selStep1 data sel acc k) a =
        if a = k ∧ a ∈ sel ∧ (lookupKey data a).isSome = true then lookupKey data a
        else lookupKey acc a := by
      unfold selStep1
      by_cases hk : k ∈ sel
      · rw [if_pos hk]
        by_cases hak : a = k
        · subst hak
          cases hd : lookupKey data a with
          | some v =>
            show lookupKey (setKey acc a v) a =
              if a = a ∧ a ∈ sel ∧ (some v).isSome = true then some v else lookupKey acc a
            rw [lookupKey_setKey_self, if_pos ⟨rfl, hk, rfl⟩]
          | none =>
            show lookupKey acc a =
              if a = a ∧ a ∈ sel ∧ (none : Option AssetBreakdown).isSome = true then none
              else lookupKey acc a
            rw [if_neg (fun hc => by simpa using hc.2.2)]
        · have hcond : ¬(a = k ∧ a ∈ sel ∧ (lookupKey data a).isSome = true) :=
            fun hc => hak hc.1
          rw [if_neg hcond]
          cases hd : lookupKey data k with
          | some v =>
            show lookupKey (setKey acc k v) a = lookupKey acc a
            rw [lookupKey_setKey_ne _ _ _ hak]
          | none => rfl
      · rw [if_neg hk]
        have hcond : ¬(a = k ∧ a ∈ sel ∧ (lookupKey data a).isSome = true) :=
          fun hc => hk (hc.1 ▸ hc.2.1)
        rw [if_neg hcond]
    rw [List.foldl_cons, ih, hstep]
    by_cases h1 : a ∈ ks ∧ a ∈ sel ∧ (lookupKey data a).isSome = true
    · rw [if_pos h1, if_pos ⟨List.mem_cons_of_mem _ h1.1, h1.2⟩]
    · rw [if_neg h1]
      by_cases h2 : a = k ∧ a ∈ sel ∧ (lookupKey data a).isSome = true
      · rw [if_pos h2, if_pos ⟨h2.1 ▸ List.mem_cons_self _ _, h2.2⟩]
      · rw [if_neg h2, if_neg ?_]
        rintro ⟨hmem, hrest⟩
        rcases List.mem_cons.mp hmem with rfl | hmem'
        · exact h2 ⟨rfl, hrest⟩
        · exact h1 ⟨hmem', hrest⟩

theorem loop1_lookup (data : Rec) (sel : List Path) (a : Path) :
    lookupKey ((keysOf data).foldl (selStep1 data sel) []) a =
      if a ∈ keysOf data ∧ a ∈ sel then lookupKey data a else none := by
  rw [foldl_selStep1_lookup]
  by_cases h : a ∈ keysOf data ∧ a ∈ sel
  · rw [if_pos ⟨h.1, h.2, (lookupKey_isSome data a).mpr h.1⟩, if_pos h]
  · rw [if_neg (fun hc => h ⟨hc.1, hc.2.1⟩), if_neg h]
    rfl

theorem selStep2_isSome_mono (data : Rec) (sel : List Path) (acc : Rec) (k b : Path)
    (h : (lookupKey acc b).isSome = true) :
    (lookupKey (selStep2 data sel acc k) b).isSome = true := by
  unfold selStep2
  by_cases hksel : k ∈ sel
  · rw [if_pos hksel]
    exact h
  · rw [if_neg hksel]
    by_cases hany : (keysOf acc).any (fun v => startsWithSep k v) = true
    · rw [if_pos hany]
      cases hd : lookupKey data k with
      | none => exact h
      | some v =>
        by_cases hbk : b = k
        · subst hbk
          show (lookupKey (setKey acc b v) b).isSome = true
          rw [lookupKey_setKey_self]
          rfl
        · show (lookupKey (setKey acc k v) b).isSome = true
          rw [lookupKey_setKey_ne _ _ _ hbk]
          exact h
    · rw [if_neg hany]
      exact h

theorem foldl_selStep2_isSome_mono (data : Rec) (sel : List Path) :
    ∀ (ks : List Path) (acc : Rec) (b : Path),
      (lookupKey acc b).isSome = true →
      (lookupKey (ks.foldl (selStep2 data sel) acc) b).isSome = true := by
  intro ks
  induction ks with
  | nil => exact fun acc b h => h
  | cons k ks ih =>
    intro acc b h
    rw [List.foldl_cons]
    exact ih _ b (selStep2_isSome_mono data sel acc k b h)

theorem foldl_selStep2_sound (data : Rec) (sel : List Path) :
    ∀ (ks : List Path) (acc : Rec),
      (∀ x ∈ ks, x ∈ keysOf data) →
      (∀ b, b ∈ keysOf acc →
        (b ∈ keysOf data ∧
          (b ∈ sel ∨ ∃ s, s ∈ keysOf data ∧ s ∈ sel ∧ startsWithSep b s = true)) ∧
          lookupKey acc b = lookupKey data b) →
      ∀ b, b ∈ keysOf (ks.foldl (selStep2 data sel) acc) →
        (b ∈ keysOf data ∧
          (b ∈ sel ∨ ∃ s, s ∈ keysOf data ∧ s ∈ sel ∧ startsWithSep b s = true)) ∧
          lookupKey (ks.foldl (selStep2 data sel) acc) b = lookupKey data b := by
  intro ks
  induction ks with
  | nil => exact fun acc _ hacc b hb => hacc b hb
  | cons k ks ih =>
    intro acc hsub hacc
    rw [List.foldl_cons]
    refine ih _ (fun x hx => hsub x (List.mem_cons_of_mem _ hx)) ?_
    intro b hb
    unfold selStep2 at hb ⊢
    by_cases hksel : k ∈ sel
    · rw [if_pos hksel] at hb ⊢
      exact hacc b hb
    · rw [if_neg hksel] at hb ⊢
      by_cases hany : (keysOf acc).any (fun v => startsWithSep k v) = true
      · rw [if_pos hany] at hb ⊢
        cases hd : lookupKey data k with
        | none =>
          rw [hd] at hb
          exact hacc b hb
        | some v =>
          rw [hd] at hb
          have hb' : b ∈ keysOf (setKey acc k v) := hb
          show (b ∈ keysOf data ∧
              (b ∈ sel ∨ ∃ s, s ∈ keysOf data ∧ s ∈ sel ∧ startsWithSep b s = true)) ∧
            lookupKey (setKey acc k v) b = lookupKey data b
          by_cases hbk : b = k
          · subst hbk
            refine ⟨⟨hsub b (List.mem_cons_self _ _), Or.inr ?_⟩, ?_⟩
            · obtain ⟨x, hx, hswx⟩ := List.any_eq_true.mp hany
              obtain ⟨⟨hxdata, hxgood⟩, -⟩ := hacc x hx
              rcases hxgood with hxsel | ⟨s, hs1, hs2, hs3⟩
              · exact ⟨x, hxdata, hxsel, hswx⟩
              · exact ⟨s, hs1, hs2, startsWithSep_trans hswx hs3⟩
            · rw [lookupKey_setKey_self, hd]
          · rw [mem_keysOf_setKey] at hb'
            rcases hb' with hb' | hb'
            · exact ⟨(hacc b hb').1,
                by rw [lookupKey_setKey_ne _ _ _ hbk]; exact (hacc b hb').2⟩
            · exact absurd hb' hbk
      · rw [if_neg hany] at hb ⊢
        exact hacc b hb

theorem foldl_selStep2_complete (data : Rec) (sel : List Path) :
    ∀ (ks : List Path) (acc : Rec) (a : Path), a ∈ ks → a ∉ sel →
      (∃ s, s ∈ sel ∧ (lookupKey acc s).isSome = true ∧ startsWithSep a s = true) →
      (lookupKey data a).isSome = true →
      (lookupKey (ks.foldl (selStep2 data sel) acc) a).isSome = true := by
  intro ks
  induction ks with
  | nil =>
    intro acc a ha
    exact absurd ha (List.not_mem_nil a)
  | cons k ks ih =>
    intro acc a ha hasel hex hdata
    obtain ⟨s, hssel, hsis, hsw⟩ := hex
    rw [List.foldl_cons]
    rcases List.mem_cons.mp ha with rfl | ha'
    · have hstep : (lookupKey (selStep2 data sel acc a) a).isSome = true := by
        unfold selStep2
        rw [if_neg hasel]
        have hany : (keysOf acc).any (fun v => startsWithSep a v) = true := by
          rw [List.any_eq_true]
          exact ⟨s, (lookupKey_isSome acc s).mp hsis, hsw⟩
        rw [if_pos hany]
        cases hd : lookupKey data a with
        | none =>
          rw [hd] at hdata
          exact absurd hdata (by simp)
        | some v =>
          show (lookupKey (setKey acc a v) a).isSome = true
          rw [lookupKey_setKey_self]
          rfl
      exact foldl_selStep2_isSome_mono data sel ks _ a hstep
    · exact ih _ a ha' hasel
        ⟨s, hssel, selStep2_isSome_mono data sel acc k s hsis, hsw⟩ hdata

theorem selFilter_isSome_iff (data : Rec) (sel : List Path) (a : Path) :
    (lookupKey (applyAccountSelectionFilter data sel) a).isSome = true ↔
      a ∈ keysOf data ∧
        (a ∈ sel ∨ ∃ s, s ∈ keysOf data ∧ s ∈ sel ∧ startsWithSep a s = true) := by
  have hbase : ∀ b, b ∈ keysOf ((keysOf data).foldl (selStep1 data sel) []) →
      (b ∈ keysOf data ∧
        (b ∈ sel ∨ ∃ s, s ∈ keysOf data ∧ s ∈ sel ∧ startsWithSep b s = true)) ∧
        lookupKey ((keysOf data).foldl (selStep1 data sel) []) b = lookupKey data b := by
    intro b hb
    have his := (lookupKey_isSome _ b).mpr hb
    rw [loop1_lookup] at his
    by_cases hc : b ∈ keysOf data ∧ b ∈ sel
    · exact ⟨⟨hc.1, Or.inl hc.2⟩, by rw [loop1_lookup, if_pos hc]⟩
    · rw [if_neg hc] at his
      exact absurd his (by simp)
  constructor
  · intro h
    have hmem := (lookupKey_isSome _ a).mp h
    exact (foldl_selStep2_sound data sel (keysOf data) _ (fun x hx => hx) hbase a hmem).1
  · rintro ⟨hmem, hgood | ⟨s, hs1, hs2, hs3⟩⟩
    · have h1 : (lookupKey ((keysOf data).foldl (selStep1 data sel) []) a).isSome = true := by
        rw [loop1_lookup, if_pos ⟨hmem, hgood⟩]
        exact (lookupKey_isSome data a).mpr hmem
      exact foldl_selStep2_isSome_mono data sel (keysOf data) _ a h1
    · by_cases hasel : a ∈ sel
      · have h1 : (lookupKey ((keysOf data).foldl (selStep1 data sel) []) a).isSome = true := by
          rw [loop1_lookup, if_pos ⟨hmem, hasel⟩]
          exact (lookupKey_isSome data a).mpr hmem
        exact foldl_selStep2_isSome_mono data sel (keysOf data) _ a h1
      · refine foldl_selStep2_complete data sel (keysOf data) _ a hmem hasel
          ⟨s, hs2, ?_, hs3⟩ ((lookupKey_isSome data a).mpr hmem)
        rw [loop1_lookup, if_pos ⟨hs1, hs2⟩]
        exact (lookupKey_isSome data s).mpr hs1

theorem selFilter_lookup_eq (data : Rec) (sel : List Path) (a : Path)
    (h : a ∈ keysOf (applyAccountSelectionFilter data sel)) :
    lookupKey (applyAccountSelectionFilter data sel) a = lookupKey data a := by
  have hbase : ∀ b, b ∈ keysOf ((keysOf data).foldl (selStep1 data sel) []) →
      (b ∈ keysOf data ∧
        (b ∈ sel ∨ ∃ s, s ∈ keysOf data ∧ s ∈ sel ∧ startsWithSep b s = true)) ∧
        lookupKey ((keysOf data).foldl (selStep1 data sel) []) b = lookupKey data b := by
    intro b hb
    have his := (lookupKey_isSome _ b).mpr hb
    rw [loop1_lookup] at his
    by_cases hc : b ∈ keysOf data ∧ b ∈ sel
    · exact ⟨⟨hc.1, Or.inl hc.2⟩, by rw [loop1_lookup, if_pos hc]⟩
    · rw [if_neg hc] at his
      exact absurd his (by simp)
  exact (foldl_selStep2_sound data sel (keysOf data) _ (fun x hx => hx) hbase a h).2

theorem selStep1_nodup (data : Rec) (sel : List Path) (acc : Rec) (k : Path)
    (h : (keysOf acc).Nodup) : (keysOf (selStep1 data sel acc k)).Nodup := by
  unfold selStep1
  by_cases hk : k ∈ sel
  · rw [if_pos hk]
    cases lookupKey data k with
    | none => exact h
    | some v => exact nodup_keysOf_setKey k v h
  · rw [if_neg hk]
    exact h

theorem selStep2_nodup (data : Rec) (sel : List Path) (acc : Rec) (k : Path)
    (h : (keysOf acc).Nodup) : (keysOf (selStep2 data sel acc k)).Nodup := by
  unfold selStep2
  by_cases hk : k ∈ sel
  · rw [if_pos hk]
    exact h
  · rw [if_neg hk]
    by_cases hany : (keysOf acc).any (fun v => startsWithSep k v) = true
    · rw [if_pos hany]
      cases lookupKey data k with
      | none => exact h
      | some v => exact nodup_keysOf_setKey k v h
    · rw [if_neg hany]
      exact h

theorem selFilter_nodup (data : Rec) (sel : List Path) :
    (keysOf (applyAccountSelectionFilter data sel)).Nodup := by
  unfold applyAccountSelectionFilter
  exact foldl_pres (fun r : Rec => (keysOf r).Nodup) _
    (fun s x hs => selStep2_nodup data sel s x hs) _ _
    (foldl_pres (fun r : Rec => (keysOf r).Nodup) _
      (fun s x hs => selStep1_nodup data sel s x hs) _ [] List.nodup_nil)

/-! ### The bottom-up rollup invariant -/

theorem mem_dcList {r : Rec} {p c : Path} :
    c ∈ dcList r p ↔ c ∈ keysOf r ∧ directChildB p c = true := by
  unfold dcList
  rw [List.mem_filter]

theorem processParent_inv
    (I : Rec) (S : List Path) (pre : List Path) (p : Path) (rest : List Path) (r : Rec)
    (hS : S = pre ++ p :: rest)
    (hnd : S.Nodup)
    (hpw : S.Pairwise (fun a b => (splitCh b).length ≤ (splitCh a).length))
    (hmem : ∀ q, q ∈ S ↔ ∃ k, k ∈ keysOf I ∧ startsWithSep q k = true)
    (hinv : RecInv I pre r) :
    RecInv I (pre ++ [p]) (processParent r p) := by
  have hndS : (pre ++ p :: rest).Nodup := hS ▸ hnd
  have hpwS : (pre ++ p :: rest).Pairwise
      (fun a b => (splitCh b).length ≤ (splitCh a).length) := hS ▸ hpw
  have hpS : p ∈ S := by
    rw [hS]
    exact List.mem_append_right _ (List.mem_cons_self _ _)
  have hpnotpre : p ∉ pre := by
    intro hp
    exact (List.nodup_append.mp hndS).2.2 hp (List.mem_cons_self _ _)
  have hdeep_pre : ∀ q ∈ pre, (splitCh p).length ≤ (splitCh q).length := by
    intro q hq
    exact (List.pairwise_append.mp hpwS).2.2 q hq p (List.mem_cons_self _ _)
  have hrest_le : ∀ b ∈ rest, (splitCh b).length ≤ (splitCh p).length := by
    intro b hb
    exact (List.pairwise_cons.mp (List.pairwise_append.mp hpwS).2.1).1 b hb
  have hdeeper_in_pre : ∀ c, c ∈ S → (splitCh p).length < (splitCh c).length → c ∈ pre := by
    intro c hc hlt
    rw [hS, List.mem_append, List.mem_cons] at hc
    rcases hc with hc | rfl | hc
    · exact hc
    · exact absurd hlt (lt_irrefl _)
    · exact absurd hlt (not_lt.mpr (hrest_le c hc))
  obtain ⟨k, hkI, hswp⟩ := (hmem p).mp hpS
  obtain ⟨c, hdc, hck⟩ := childToward hswp
  have hcKeys : c ∈ keysOf r := by
    rcases hck with rfl | hswc
    · exact (hinv.keys_iff c).mpr (Or.inl hkI)
    · have hcS : c ∈ S := (hmem c).mpr ⟨k, hkI, hswc⟩
      have hlt : (splitCh p).length < (splitCh c).length := by
        rw [depth_of_directChildB hdc]
        omega
      exact (hinv.keys_iff c).mpr (Or.inr (hdeeper_in_pre c hcS hlt))
  have hdcne : dcList r p ≠ [] := by
    intro hnil
    have hcmem : c ∈ dcList r p := mem_dcList.mpr ⟨hcKeys, hdc⟩
    rw [hnil] at hcmem
    exact absurd hcmem (List.not_mem_nil c)
  have hproc : processParent r p =
      setKey r p (mkParentEntry p (childTotals r (dcList r p))) := by
    unfold processParent
    rw [if_neg hdcne]
  rw [hproc]
  have hdc_pres : ∀ x, (splitCh p).length ≤ (splitCh x).length →
      dcList (setKey r p (mkParentEntry p (childTotals r (dcList r p)))) x = dcList r x := by
    intro x hx
    unfold dcList
    rw [keysOf_setKey]
    by_cases hm : p ∈ keysOf r
    · rw [if_pos hm]
    · rw [if_neg hm, List.filter_append]
      have hfalse : directChildB x p = false := by
        cases hb : directChildB x p with
        | false => rfl
        | true =>
          have := depth_of_directChildB hb
          omega
      simp [hfalse]
  have hval_pres : ∀ x, (splitCh p).length ≤ (splitCh x).length →
      ∀ c' ∈ dcList r x,
        lookupKey (setKey r p (mkParentEntry p (childTotals r (dcList r p)))) c' =
          lookupKey r c' := by
    intro x hx c' hc'
    have hdc' := (mem_dcList.mp hc').2
    have hne : c' ≠ p := by
      intro hh
      have := depth_of_directChildB hdc'
      rw [hh] at this
      omega
    exact lookupKey_setKey_ne _ _ _ hne
  refine ⟨nodup_keysOf_setKey _ _ hinv.nodup, ?_, ?_, ?_⟩
  · intro q
    rw [mem_keysOf_setKey, hinv.keys_iff, List.mem_append, List.mem_singleton]
    tauto
  · intro q hq
    rw [List.mem_append, List.mem_singleton] at hq
    push_neg at hq
    rw [lookupKey_setKey_ne _ _ _ hq.2]
    exact hinv.val_old q hq.1
  · intro q hq
    rw [List.mem_append, List.mem_singleton] at hq
    rcases hq with hqpre | rfl
    · have hdq : (splitCh p).length ≤ (splitCh q).length := hdeep_pre q hqpre
      have hqnep : q ≠ p := fun h => hpnotpre (h ▸ hqpre)
      rw [lookupKey_setKey_ne _ _ _ hqnep, hinv.val_new q hqpre, hdc_pres q hdq]
      have : childTotals (setKey r p (mkParentEntry p (childTotals r (dcList r p))))
          (dcList r q) = childTotals r (dcList r q) :=
        childTotals_congr (List.Perm.refl _) (hval_pres q hdq)
      rw [this]
    · rw [lookupKey_setKey_self, hdc_pres q (le_refl _)]
      have : childTotals (setKey r q (mkParentEntry q (childTotals r (dcList r q))))
          (dcList r q) = childTotals r (dcList r q) :=
        childTotals_congr (List.Perm.refl _) (hval_pres q (le_refl _))
      rw [this]

theorem foldl_processParent_inv (I : Rec) (S : List Path)
    (hnd : S.Nodup)
    (hpw : S.Pairwise (fun a b => (splitCh b).length ≤ (splitCh a).length))
    (hmem : ∀ q, q ∈ S ↔ ∃ k, k ∈ keysOf I ∧ startsWithSep q k = true) :
    ∀ (suf pre : List Path) (r : Rec), S = pre ++ suf → RecInv I pre r →
      RecInv I (pre ++ suf) (suf.foldl processParent r) := by
  intro suf
  induction suf with
  | nil =>
    intro pre r hS hinv
    simpa using hinv
  | cons p rest ih =>
    intro pre r hS hinv
    rw [List.foldl_cons]
    have hstep := processParent_inv I S pre p rest r hS hnd hpw hmem hinv
    have hres := ih (pre ++ [p]) (processParent r p) (by rw [hS]; simp) hstep
    have heq : (pre ++ [p]) ++ rest = pre ++ p :: rest := by simp
    rw [heq] at hres
    exact hres

theorem recalc_inv (I : Rec) (hK : (keysOf I).Nodup) :
    RecInv I (sortedParents I) (recalculateParentTotals I) := by
  have hbase : RecInv I [] I :=
    ⟨hK, by simp, fun q _ => rfl, fun q hq => absurd hq (List.not_mem_nil q)⟩
  have h := foldl_processParent_inv I (sortedParents I) (nodup_sortedParents I)
    (pairwise_sortedParents I)
    (fun q => mem_sortedParents I q) (sortedParents I) [] I rfl hbase
  simpa using h

/-! ### Consequences of the rollup invariant -/

theorem recalc_keys_iff (I : Rec) (hK : (keysOf I).Nodup) (q : Path) :
    q ∈ keysOf (recalculateParentTotals I) ↔
      q ∈ keysOf I ∨ ∃ k, k ∈ keysOf I ∧ startsWithSep q k = true := by
  rw [(recalc_inv I hK).keys_iff q, mem_sortedParents]

theorem recalc_lookup_old (I : Rec) (hK : (keysOf I).Nodup) (q : Path)
    (h : ¬∃ k, k ∈ keysOf I ∧ startsWithSep q k = true) :
    lookupKey (recalculateParentTotals I) q = lookupKey I q :=
  (recalc_inv I hK).val_old q (fun hq => h ((mem_sortedParents I q).mp hq))

theorem recalc_lookup_new (I : Rec) (hK : (keysOf I).Nodup) (q : Path)
    (h : ∃ k, k ∈ keysOf I ∧ startsWithSep q k = true) :
    lookupKey (recalculateParentTotals I) q =
      some (mkParentEntry q (childTotals (recalculateParentTotals I)
        (dcList (recalculateParentTotals I) q))) :=
  (recalc_inv I hK).val_new q ((mem_sortedParents I q).mpr h)

theorem recalc_nodup (I : Rec) (hK : (keysOf I).Nodup) :
    (keysOf (recalculateParentTotals I)).Nodup :=
  (recalc_inv I hK).nodup

theorem recalc_dc_ne (I : Rec) (hK : (keysOf I).Nodup) (q : Path)
    (h : ∃ k, k ∈ keysOf I ∧ startsWithSep q k = true) :
    dcList (recalculateParentTotals I) q ≠ [] := by
  obtain ⟨k, hkI, hsw⟩ := h
  obtain ⟨c, hdc, hck⟩ := childToward hsw
  have hc : c ∈ keysOf (recalculateParentTotals I) := by
    rcases hck with rfl | hswc
    · exact (recalc_keys_iff I hK c).mpr (Or.inl hkI)
    · exact (recalc_keys_iff I hK c).mpr (Or.inr ⟨k, hkI, hswc⟩)
  intro hnil
  have hcm : c ∈ dcList (recalculateParentTotals I) q := mem_dcList.mpr ⟨hc, hdc⟩
  rw [hnil] at hcm
  exact absurd hcm (List.not_mem_nil c)

theorem recalc_anc_of_dc_ne (I : Rec) (hK : (keysOf I).Nodup) (q : Path)
    (h : dcList (recalculateParentTotals I) q ≠ []) :
    ∃ k, k ∈ keysOf I ∧ startsWithSep q k = true := by
  obtain ⟨c, hc⟩ := List.exists_mem_of_ne_nil _ h
  obtain ⟨hck, hdc⟩ := mem_dcList.mp hc
  have hsw : startsWithSep q c = true := startsWithSep_of_directChildB hdc
  rcases (recalc_keys_iff I hK c).mp hck with hcI | ⟨k, hkI, hswc⟩
  · exact ⟨c, hcI, hsw⟩
  · exact ⟨k, hkI, startsWithSep_trans hsw hswc⟩

theorem lookup_ext_of_parents
    (r₁ r₂ : Rec) (A : Path → Prop)
    (hkeys : ∀ q, q ∈ keysOf r₁ ↔ q ∈ keysOf r₂)
    (hnd₁ : (keysOf r₁).Nodup) (hnd₂ : (keysOf r₂).Nodup)
    (hA : ∀ q, A q → q ∈ keysOf r₁)
    (hold : ∀ q, ¬ A q → lookupKey r₁ q = lookupKey r₂ q)
    (hnew₁ : ∀ q, A q →
      lookupKey r₁ q = some (mkParentEntry q (childTotals r₁ (dcList r₁ q))))
    (hnew₂ : ∀ q, A q →
      lookupKey r₂ q = some (mkParentEntry q (childTotals r₂ (dcList r₂ q)))) :
    ∀ q, lookupKey r₁ q = lookupKey r₂ q := by
  have hmax : ∀ (L : List ℕ), ∀ x ∈ L, x ≤ L.foldr max 0 := by
    intro L
    induction L with
    | nil => simp
    | cons a L ih =>
      intro x hx
      rcases List.mem_cons.mp hx with rfl | hx
      · exact le_max_left _ _
      · exact le_trans (ih x hx) (le_max_right _ _)
  have hperm : List.Perm (keysOf r₁) (keysOf r₂) :=
    (List.perm_ext_iff_of_nodup hnd₁ hnd₂).mpr hkeys
  have hdepth_le : ∀ q ∈ keysOf r₁,
      (splitCh q).length ≤ ((keysOf r₁).map (fun k => (splitCh k).length)).foldr max 0 :=
    fun q hq => hmax _ _ (List.mem_map_of_mem _ hq)
  suffices h : ∀ n q,
      ((keysOf r₁).map (fun k => (splitCh k).length)).foldr max 0 + 1 -
        (splitCh q).length ≤ n →
      lookupKey r₁ q = lookupKey r₂ q by
    intro q
    exact h (((keysOf r₁).map (fun k => (splitCh k).length)).foldr max 0 + 1) q (by omega)
  intro n
  induction n with
  | zero =>
    intro q hq
    by_cases hAq : A q
    · have hmem := hA q hAq
      have := hdepth_le q hmem
      have := splitCh_length_pos q
      omega
    · exact hold q hAq
  | succ n ih =>
    intro q hq
    by_cases hAq : A q
    · rw [hnew₁ q hAq, hnew₂ q hAq]
      have hdcperm : List.Perm (dcList r₁ q) (dcList r₂ q) := hperm.filter _
      have hdclookup : ∀ c ∈ dcList r₁ q, lookupKey r₁ c = lookupKey r₂ c := by
        intro c hc
        have hdc := (mem_dcList.mp hc).2
        have hcd := depth_of_directChildB hdc
        have hqmem := hA q hAq
        have hqle := hdepth_le q hqmem
        exact ih c (by omega)
      rw [childTotals_congr hdcperm hdclookup]
    · exact hold q hAq

theorem recalc_ext (J₁ J₂ : Rec) (h₁ : (keysOf J₁).Nodup) (h₂ : (keysOf J₂).Nodup)
    (hl : ∀ q, lookupKey J₁ q = lookupKey J₂ q) :
    ∀ q, lookupKey (recalculateParentTotals J₁) q =
      lookupKey (recalculateParentTotals J₂) q := by
  have hkeysJ : ∀ q, q ∈ keysOf J₁ ↔ q ∈ keysOf J₂ := fun q => by
    rw [← lookupKey_isSome, ← lookupKey_isSome, hl q]
  refine lookup_ext_of_parents _ _
    (fun q => ∃ k, k ∈ keysOf J₁ ∧ startsWithSep q k = true) ?_
    (recalc_nodup J₁ h₁) (recalc_nodup J₂ h₂) ?_ ?_ ?_ ?_
  · intro q
    rw [recalc_keys_iff J₁ h₁, recalc_keys_iff J₂ h₂]
    constructor
    · rintro (h | ⟨k, hk, hsw⟩)
      · exact Or.inl ((hkeysJ q).mp h)
      · exact Or.inr ⟨k, (hkeysJ k).mp hk, hsw⟩
    · rintro (h | ⟨k, hk, hsw⟩)
      · exact Or.inl ((hkeysJ q).mpr h)
      · exact Or.inr ⟨k, (hkeysJ k).mpr hk, hsw⟩
  · intro q hq
    exact (recalc_keys_iff J₁ h₁ q).mpr (Or.inr hq)
  · intro q hq
    have hq₂ : ¬∃ k, k ∈ keysOf J₂ ∧ startsWithSep q k = true := by
      rintro ⟨k, hk, hsw⟩
      exact hq ⟨k, (hkeysJ k).mpr hk, hsw⟩
    rw [recalc_lookup_old J₁ h₁ q hq, recalc_lookup_old J₂ h₂ q hq₂]
    exact hl q
  · intro q hq
    exact recalc_lookup_new J₁ h₁ q hq
  · intro q hq
    obtain ⟨k, hk, hsw⟩ := hq
    exact recalc_lookup_new J₂ h₂ q ⟨k, (hkeysJ k).mp hk, hsw⟩

theorem keysOf_processParent_of_mem (r : Rec) (p : Path) (h : p ∈ keysOf r) :
    keysOf (processParent r p) = keysOf r := by
  unfold processParent
  by_cases hdc : dcList r p = []
  · rw [if_pos hdc]
  · rw [if_neg hdc]
    exact keysOf_setKey_of_mem _ h

theorem keysOf_foldl_processParent (ps : List Path) : ∀ (r : Rec),
    (∀ p ∈ ps, p ∈ keysOf r) → keysOf (ps.foldl processParent r) = keysOf r := by
  induction ps with
  | nil =>
    intro r _
    rfl
  | cons p ps ih =>
    intro r h
    rw [List.foldl_cons]
    have hkp := keysOf_processParent_of_mem r p (h p (List.mem_cons_self _ _))
    rw [ih (processParent r p)
      (fun x hx => by rw [hkp]; exact h x (List.mem_cons_of_mem _ hx)), hkp]

/-! ### Field projections of the freshly written parent entry -/

theorem mkParentEntry_investment (p : Path) (t : Totals) :
    (mkParentEntry p t).investmentAmount = t.investmentAmount := rfl

theorem mkParentEntry_withdrawal (p : Path) (t : Totals) :
    (mkParentEntry p t).withdrawalAmount = t.withdrawalAmount := rfl

theorem mkParentEntry_balance (p : Path) (t : Totals) :
    (mkParentEntry p t).balanceUnits = t.balanceUnits := rfl

theorem mkParentEntry_market (p : Path) (t : Totals) :
    (mkParentEntry p t).marketAmount = t.marketAmount := rfl

theorem mkParentEntry_gain (p : Path) (t : Totals) :
    (mkParentEntry p t).gainAmount = t.gainAmount := rfl

theorem mkParentEntry_xirr (p : Path) (t : Totals) :
    (mkParentEntry p t).xirr =
      if 0 < t.investmentAmount then t.gainAmount / t.investmentAmount * 100 else 0 := rfl

theorem mkParentEntry_absReturn (p : Path) (t : Totals) :
    (mkParentEntry p t).absoluteReturn =
      if 0 < t.investmentAmount then
        (t.marketAmount - t.investmentAmount + t.withdrawalAmount) /
          t.investmentAmount * 100
      else 0 := rfl

/-! ### Claim C1 -/

/-- C1: in the output of `recalculateParentTotals`, every account with at
least one direct child (a key one colon-segment deeper extending it) in the
output holds an entry whose five base fields each equal the sum of that
field over exactly its direct children in the output; the deepest-first
processing makes this hold at every level simultaneously. -/
theorem recalc_parent_sums (I : Rec) (hK : (keysOf I).Nodup) (p : Path)
    (h : dcList (recalculateParentTotals I) p ≠ []) :
    ∃ b, lookupKey (recalculateParentTotals I) p = some b ∧
      b.investmentAmount = fieldSum (recalculateParentTotals I)
        (dcList (recalculateParentTotals I) p) (fun x => x.investmentAmount) ∧
      b.withdrawalAmount = fieldSum (recalculateParentTotals I)
        (dcList (recalculateParentTotals I) p) (fun x => x.withdrawalAmount) ∧
      b.balanceUnits = fieldSum (recalculateParentTotals I)
        (dcList (recalculateParentTotals I) p) (fun x => x.balanceUnits) ∧
      b.marketAmount = fieldSum (recalculateParentTotals I)
        (dcList (recalculateParentTotals I) p) (fun x => x.marketAmount) ∧
      b.gainAmount = fieldSum (recalculateParentTotals I)
        (dcList (recalculateParentTotals I) p) (fun x => x.gainAmount) := by
  have hanc := recalc_anc_of_dc_ne I hK p h
  refine ⟨_, recalc_lookup_new I hK p hanc, ?_, ?_, ?_, ?_, ?_⟩
  · rw [mkParentEntry_investment, childTotals_eq]
  · rw [mkParentEntry_withdrawal, childTotals_eq]
  · rw [mkParentEntry_balance, childTotals_eq]
  · rw [mkParentEntry_market, childTotals_eq]
  · rw [mkParentEntry_gain, childTotals_eq]

/-- Witness for C1 on a concrete record: the parent `a` of the two leaves
`a:b` and `a:c`. -/
theorem recalc_parent_sums_witness :
    ∃ b, lookupKey (recalculateParentTotals dataW) ("a".data) = some b ∧
      b.investmentAmount = fieldSum (recalculateParentTotals dataW)
        (dcList (recalculateParentTotals dataW) ("a".data)) (fun x => x.investmentAmount) ∧
      b.withdrawalAmount = fieldSum (recalculateParentTotals dataW)
        (dcList (recalculateParentTotals dataW) ("a".data)) (fun x => x.withdrawalAmount) ∧
      b.balanceUnits = fieldSum (recalculateParentTotals dataW)
        (dcList (recalculateParentTotals dataW) ("a".data)) (fun x => x.balanceUnits) ∧
      b.marketAmount = fieldSum (recalculateParentTotals dataW)
        (dcList (recalculateParentTotals dataW) ("a".data)) (fun x => x.marketAmount) ∧
      b.gainAmount = fieldSum (recalculateParentTotals dataW)
        (dcList (recalculateParentTotals dataW) ("a".data)) (fun x => x.gainAmount) :=
  recalc_parent_sums dataW (by decide) ("a".data) (by decide)

/-! ### Claim C2 -/

/-- C2: with the hide-empty flag false, an account path is present in the
output of `applyFilters` exactly when it is a selected account present in
the input, or some selected account present in the input is a strict
descendant of it; removing a leaf from the selection therefore removes
every ancestor whose only visible descendants were that leaf. -/
theorem applyFilters_mem_iff (data : Rec) (sel : List Path) (q : Path) :
    q ∈ keysOf (applyFilters data false sel) ↔
      (q ∈ sel ∧ q ∈ keysOf data) ∨
        ∃ s, s ∈ sel ∧ s ∈ keysOf data ∧ startsWithSep q s = true := by
  have happ : applyFilters data false sel =
      recalculateParentTotals (applyAccountSelectionFilter data sel) := rfl
  rw [happ]
  have hndJ := selFilter_nodup data sel
  rw [recalc_keys_iff _ hndJ q]
  have hmemJ : ∀ a, a ∈ keysOf (applyAccountSelectionFilter data sel) ↔
      a ∈ keysOf data ∧
        (a ∈ sel ∨ ∃ s, s ∈ keysOf data ∧ s ∈ sel ∧ startsWithSep a s = true) :=
    fun a => by rw [← lookupKey_isSome]; exact selFilter_isSome_iff data sel a
  constructor
  · rintro (hq | ⟨k, hk, hsw⟩)
    · rcases (hmemJ q).mp hq with ⟨hqd, hqsel | ⟨s, hs1, hs2, hs3⟩⟩
      · exact Or.inl ⟨hqsel, hqd⟩
      · exact Or.inr ⟨s, hs2, hs1, hs3⟩
    · rcases (hmemJ k).mp hk with ⟨hkd, hksel | ⟨s, hs1, hs2, hs3⟩⟩
      · exact Or.inr ⟨k, hksel, hkd, hsw⟩
      · exact Or.inr ⟨s, hs2, hs1, startsWithSep_trans hsw hs3⟩
  · rintro (⟨hqsel, hqd⟩ | ⟨s, hs1, hs2, hs3⟩)
    · exact Or.inl ((hmemJ q).mpr ⟨hqd, Or.inl hqsel⟩)
    · exact Or.inr ⟨s, (hmemJ s).mpr ⟨hs2, Or.inl hs1⟩, hs3⟩

/-! ### Claim C3 -/

/-- C3: every ancestor entry recomputed by `recalculateParentTotals` has
`xirr = 100 * gainAmount / investmentAmount` and
`absoluteReturn = 100 * (marketAmount - investmentAmount +
withdrawalAmount) / investmentAmount` when the freshly summed
`investmentAmount` is positive, and both derived fields equal `0` when it
is not, so division by zero never occurs. -/
theorem recalc_derived_fields (I : Rec) (hK : (keysOf I).Nodup) (p : Path)
    (h : dcList (recalculateParentTotals I) p ≠ []) :
    ∃ b, lookupKey (recalculateParentTotals I) p = some b ∧
      (0 < b.investmentAmount →
        b.xirr = 100 * b.gainAmount / b.investmentAmount ∧
        b.absoluteReturn =
          100 * (b.marketAmount - b.investmentAmount + b.withdrawalAmount) /
            b.investmentAmount) ∧
      (b.investmentAmount ≤ 0 → b.xirr = 0 ∧ b.absoluteReturn = 0) := by
  have hanc := recalc_anc_of_dc_ne I hK p h
  refine ⟨_, recalc_lookup_new I hK p hanc, ?_, ?_⟩
  · intro hpos
    rw [mkParentEntry_investment] at hpos
    rw [mkParentEntry_investment, mkParentEntry_gain, mkParentEntry_market,
      mkParentEntry_withdrawal, mkParentEntry_xirr, mkParentEntry_absReturn,
      if_pos hpos, if_pos hpos]
    constructor <;> ring
  · intro hle
    rw [mkParentEntry_investment] at hle
    rw [mkParentEntry_xirr, mkParentEntry_absReturn,
      if_neg (not_lt.mpr hle), if_neg (not_lt.mpr hle)]
    exact ⟨rfl, rfl⟩

/-- Witness for C3 at the recomputed parent `a` of the sample record. -/
theorem recalc_derived_fields_witness :
    ∃ b, lookupKey (recalculateParentTotals dataW) ("a".data) = some b ∧
      (0 < b.investmentAmount →
        b.xirr = 100 * b.gainAmount / b.investmentAmount ∧
        b.absoluteReturn =
          100 * (b.marketAmount - b.investmentAmount + b.withdrawalAmount) /
            b.investmentAmount) ∧
      (b.investmentAmount ≤ 0 → b.xirr = 0 ∧ b.absoluteReturn = 0) :=
  recalc_derived_fields dataW (by decide) ("a".data) (by decide)

/-! ### Claim C4 -/

/-- C4: `recalculateParentTotals` is idempotent — applying it to its own
output returns that output unchanged. -/
theorem recalc_idem (I : Rec) (hK : (keysOf I).Nodup) :
    recalculateParentTotals (recalculateParentTotals I) = recalculateParentTotals I := by
  have hnd_out : (keysOf (recalculateParentTotals I)).Nodup := recalc_nodup I hK
  have hanc : ∀ q, (∃ k, k ∈ keysOf (recalculateParentTotals I) ∧ startsWithSep q k = true) ↔
      (∃ k, k ∈ keysOf I ∧ startsWithSep q k = true) := by
    intro q
    constructor
    · rintro ⟨k, hk, hsw⟩
      rcases (recalc_keys_iff I hK k).mp hk with hkI | ⟨k', hk', hsw'⟩
      · exact ⟨k, hkI, hsw⟩
      · exact ⟨k', hk', startsWithSep_trans hsw hsw'⟩
    · rintro ⟨k, hk, hsw⟩
      exact ⟨k, (recalc_keys_iff I hK k).mpr (Or.inl hk), hsw⟩
  have hancsub : ∀ q, (∃ k, k ∈ keysOf I ∧ startsWithSep q k = true) →
      q ∈ keysOf (recalculateParentTotals I) :=
    fun q hq => (recalc_keys_iff I hK q).mpr (Or.inr hq)
  have hext : ∀ q, lookupKey (recalculateParentTotals (recalculateParentTotals I)) q =
      lookupKey (recalculateParentTotals I) q := by
    refine lookup_ext_of_parents _ _
      (fun q => ∃ k, k ∈ keysOf I ∧ startsWithSep q k = true) ?_
      (recalc_nodup _ hnd_out) hnd_out ?_ ?_ ?_ ?_
    · intro q
      rw [recalc_keys_iff _ hnd_out q]
      constructor
      · rintro (h | h)
        · exact h
        · exact hancsub q ((hanc q).mp h)
      · exact Or.inl
    · intro q hq
      exact (recalc_keys_iff _ hnd_out q).mpr (Or.inl (hancsub q hq))
    · intro q hq
      exact recalc_lookup_old _ hnd_out q (fun hex => hq ((hanc q).mp hex))
    · intro q hq
      exact recalc_lookup_new _ hnd_out q ((hanc q).mpr hq)
    · intro q hq
      exact recalc_lookup_new I hK q hq
  have hkeys_eq : keysOf (recalculateParentTotals (recalculateParentTotals I)) =
      keysOf (recalculateParentTotals I) := by
    have h := keysOf_foldl_processParent (sortedParents (recalculateParentTotals I))
      (recalculateParentTotals I) ?_
    · exact h
    · intro p hp
      obtain ⟨k, hk, hsw⟩ := (mem_sortedParents _ p).mp hp
      exact hancsub p ((hanc p).mp ⟨k, hk, hsw⟩)
  exact rec_ext _ _ hkeys_eq (recalc_nodup _ hnd_out) hext

/-- Witness for C4 on the concrete sample record. -/
theorem recalc_idem_witness :
    recalculateParentTotals (recalculateParentTotals dataW) =
      recalculateParentTotals dataW :=
  recalc_idem dataW (by decide)

/-! ### Claim C5 -/

/-- C5: with the hide-empty flag false, a selected account present in the
input with no strict descendant in the output of `applyFilters` keeps its
input entry unchanged, field for field. -/
theorem kept_leaf_unchanged (data : Rec) (sel : List Path) (q : Path)
    (hsel : q ∈ sel) (hmem : q ∈ keysOf data)
    (hleaf : ∀ c ∈ keysOf (applyFilters data false sel), startsWithSep q c = false) :
    lookupKey (applyFilters data false sel) q = lookupKey data q := by
  have happ : applyFilters data false sel =
      recalculateParentTotals (applyAccountSelectionFilter data sel) := rfl
  rw [happ] at hleaf ⊢
  have hndJ := selFilter_nodup data sel
  have hnoanc : ¬∃ k, k ∈ keysOf (applyAccountSelectionFilter data sel) ∧
      startsWithSep q k = true := by
    rintro ⟨k, hk, hsw⟩
    have hkout : k ∈ keysOf (recalculateParentTotals (applyAccountSelectionFilter data sel)) :=
      (recalc_keys_iff _ hndJ k).mpr (Or.inl hk)
    have hfalse := hleaf k hkout
    rw [hfalse] at hsw
    exact absurd hsw (by simp)
  rw [recalc_lookup_old _ hndJ q hnoanc]
  apply selFilter_lookup_eq
  rw [← lookupKey_isSome]
  exact (selFilter_isSome_iff data sel q).mpr ⟨hmem, Or.inl hsel⟩

/-- Witness for C5: the selected leaf `a:b` survives filtering unchanged. -/
theorem kept_leaf_unchanged_witness :
    lookupKey (applyFilters dataW false selW) ("a:b".data) =
      lookupKey dataW ("a:b".data) :=
  kept_leaf_unchanged dataW selW ("a:b".data) (by decide) (by decide) (by decide)

/-! ### Claim C6 -/

/-- C6: when no key carries the colon separator, `recalculateParentTotals`
collects no parent paths and returns the record unchanged, with no error
signalled. -/
theorem recalc_no_sep_unchanged (I : Rec) (h : ∀ k ∈ keysOf I, sep ∉ k) :
    recalculateParentTotals I = I := by
  have haux : ∀ (ks : List Path), (∀ k ∈ ks, sep ∉ k) →
      ∀ acc, ks.foldl collectStep acc = acc := by
    intro ks
    induction ks with
    | nil => intro _ acc; rfl
    | cons k ks ih =>
      intro hks acc
      rw [List.foldl_cons]
      have hid : collectStep acc k = acc := by
        unfold collectStep
        rw [splitCh_of_not_mem k (hks k (List.mem_cons_self _ _))]
        rfl
      rw [hid]
      exact ih (fun x hx => hks x (List.mem_cons_of_mem _ hx)) acc
  show (sortedParents I).foldl processParent I = I
  unfold sortedParents collectParentPaths
  rw [haux (keysOf I) h []]
  rfl

/-- Witness for C6 on a record whose keys carry no separator. -/
theorem recalc_no_sep_unchanged_witness :
    recalculateParentTotals dataFlat = dataFlat :=
  recalc_no_sep_unchanged dataFlat (by decide)

/-! ### Claim C7 -/

theorem eq_none_of_not_isSome {o : Option AssetBreakdown} (h : ¬ o.isSome = true) :
    o = none := by
  cases o with
  | none => rfl
  | some v => exact absurd rfl h

theorem selFilter_ext (d₁ d₂ : Rec) (hl : ∀ a, lookupKey d₁ a = lookupKey d₂ a)
    (sel : List Path) :
    ∀ a, lookupKey (applyAccountSelectionFilter d₁ sel) a =
      lookupKey (applyAccountSelectionFilter d₂ sel) a := by
  have hkeys : ∀ b, b ∈ keysOf d₁ ↔ b ∈ keysOf d₂ := fun b => by
    rw [← lookupKey_isSome, ← lookupKey_isSome, hl b]
  intro a
  have hgood : (lookupKey (applyAccountSelectionFilter d₁ sel) a).isSome = true ↔
      (lookupKey (applyAccountSelectionFilter d₂ sel) a).isSome = true := by
    rw [selFilter_isSome_iff, selFilter_isSome_iff]
    constructor
    · rintro ⟨hmem, hsel | ⟨s, hs1, hs2, hs3⟩⟩
      · exact ⟨(hkeys a).mp hmem, Or.inl hsel⟩
      · exact ⟨(hkeys a).mp hmem, Or.inr ⟨s, (hkeys s).mp hs1, hs2, hs3⟩⟩
    · rintro ⟨hmem, hsel | ⟨s, hs1, hs2, hs3⟩⟩
      · exact ⟨(hkeys a).mpr hmem, Or.inl hsel⟩
      · exact ⟨(hkeys a).mpr hmem, Or.inr ⟨s, (hkeys s).mpr hs1, hs2, hs3⟩⟩
  by_cases h1s : (lookupKey (applyAccountSelectionFilter d₁ sel) a).isSome = true
  · have h2s := hgood.mp h1s
    exact (selFilter_lookup_eq d₁ sel a ((lookupKey_isSome _ _).mp h1s)).trans
      ((hl a).trans (selFilter_lookup_eq d₂ sel a ((lookupKey_isSome _ _).mp h2s)).symm)
  · have h2s : ¬(lookupKey (applyAccountSelectionFilter d₂ sel) a).isSome = true :=
      fun h => h1s (hgood.mpr h)
    rw [eq_none_of_not_isSome h1s, eq_none_of_not_isSome h2s]

/-- C7: `applyFilters` is deterministic and independent of the enumeration
order of the input record's keys — permuting the input entries leaves the
output record extensionally unchanged (same keys, same entries) for the
same hide-empty flag and selection. -/
theorem applyFilters_order_independent (data₁ data₂ : Rec)
    (hperm : List.Perm data₁ data₂) (hnd : (keysOf data₁).Nodup)
    (hideEmpty : Bool) (sel : List Path) (q : Path) :
    lookupKey (applyFilters data₁ hideEmpty sel) q =
      lookupKey (applyFilters data₂ hideEmpty sel) q := by
  have happ : ∀ d : Rec, applyFilters d hideEmpty sel =
      recalculateParentTotals (applyAccountSelectionFilter
        (if hideEmpty then d.filter (fun kv => decide (kv.2.marketAmount ≠ 0)) else d)
        sel) := fun d => rfl
  rw [happ data₁, happ data₂]
  have hpermF : List.Perm
      (if hideEmpty then data₁.filter (fun kv => decide (kv.2.marketAmount ≠ 0)) else data₁)
      (if hideEmpty then data₂.filter (fun kv => decide (kv.2.marketAmount ≠ 0)) else data₂) := by
    cases hideEmpty
    · simpa using hperm
    · simpa using hperm.filter _
  have hndF : (keysOf (if hideEmpty then
      data₁.filter (fun kv => decide (kv.2.marketAmount ≠ 0)) else data₁)).Nodup := by
    cases hideEmpty
    · simpa using hnd
    · have hsub : List.Sublist
          (keysOf (data₁.filter (fun kv => decide (kv.2.marketAmount ≠ 0))))
          (keysOf data₁) := (List.filter_sublist _).map Prod.fst
      simpa using hnd.sublist hsub
  have hlF : ∀ a,
      lookupKey (if hideEmpty then
        data₁.filter (fun kv => decide (kv.2.marketAmount ≠ 0)) else data₁) a =
      lookupKey (if hideEmpty then
        data₂.filter (fun kv => decide (kv.2.marketAmount ≠ 0)) else data₂) a :=
    fun a => lookupKey_perm hpermF hndF a
  exact recalc_ext _ _ (selFilter_nodup _ sel) (selFilter_nodup _ sel)
    (selFilter_ext _ _ hlF sel) q

/-- Witness for C7 on the sample record and its reversed enumeration. -/
theorem applyFilters_order_independent_witness :
    lookupKey (applyFilters dataW false selW) ("a".data) =
      lookupKey (applyFilters dataWrev false selW) ("a".data) :=
  applyFilters_order_independent dataW dataWrev (by decide) (by decide) false selW
    ("a".data)

/-! ### Claim C8 -/

theorem mountCount_nil : mountCount [] = 0 := rfl

theorem mountCount_mount (evs : List ViewEvent) :
    mountCount (ViewEvent.mount :: evs) = mountCount evs + 1 := rfl

theorem mountCount_setHideEmpty (b : Bool) (evs : List ViewEvent) :
    mountCount (ViewEvent.setHideEmpty b :: evs) = mountCount evs := rfl

theorem mountCount_selChange (sel : List Path) (evs : List ViewEvent) :
    mountCount (ViewEvent.accountSelectionChange sel :: evs) = mountCount evs := rfl

/-- C8: in the modelled event system the assets-balance view issues the
GET of `/api/assets/balance` exactly once per mount event (so exactly once
for the single mount the framework dispatches), and the filter
interactions — the hide-empty checkbox and the account-selection change —
never fetch and never touch the fetched record; they only feed the
recomputation of `visibleBreakdowns`. -/
theorem assets_balance_fetch_once (fetched : Rec) (evs : List ViewEvent) :
    (runView fetched viewInit evs).fetchLog =
      List.replicate (mountCount evs) balanceEndpoint ∧
    (∀ (s : ViewState) (b : Bool),
      (viewStep fetched s (ViewEvent.setHideEmpty b)).fetchLog = s.fetchLog ∧
      (viewStep fetched s (ViewEvent.setHideEmpty b)).breakdowns = s.breakdowns ∧
      visibleBreakdowns (viewStep fetched s (ViewEvent.setHideEmpty b)) =
        applyFilters s.breakdowns b s.selectedAccounts) ∧
    (∀ (s : ViewState) (sel : List Path),
      (viewStep fetched s (ViewEvent.accountSelectionChange sel)).fetchLog = s.fetchLog ∧
      (viewStep fetched s (ViewEvent.accountSelectionChange sel)).breakdowns =
        s.breakdowns ∧
      visibleBreakdowns (viewStep fetched s (ViewEvent.accountSelectionChange sel)) =
        applyFilters s.breakdowns s.hideEmptyMarketValue sel) := by
  refine ⟨?_, fun s b => ⟨rfl, rfl, rfl⟩, fun s sel => ⟨rfl, rfl, rfl⟩⟩
  have haux : ∀ (evs : List ViewEvent) (s : ViewState),
      (runView fetched s evs).fetchLog =
        s.fetchLog ++ List.replicate (mountCount evs) balanceEndpoint := by
    intro evs
    induction evs with
    | nil =>
      intro s
      show s.fetchLog = s.fetchLog ++ List.replicate (mountCount []) balanceEndpoint
      rw [mountCount_nil]
      simp
    | cons e evs ih =>
      intro s
      show (runView fetched (viewStep fetched s e) evs).fetchLog = _
      rw [ih]
      cases e with
      | mount =>
        rw [mountCount_mount, List.replicate_succ]
        show (s.fetchLog ++ [balanceEndpoint]) ++ _ = _
        simp
      | setHideEmpty b =>
        rw [mountCount_setHideEmpty]
        rfl
      | accountSelectionChange sel =>
        rw [mountCount_selChange]
        rfl
  have h := haux evs viewInit
  rw [show viewInit.fetchLog = [] from rfl] at h
  simpa using h

/-! ### Claim C9 -/

/-- C9: `extractLeafAccounts` returns exactly the keys of the record that
have no strict descendant among the other keys (no other key extends them
after a colon), in ascending lexicographic order; an account whose
descendants are all absent is therefore classified as a leaf even when it
is conceptually a parent. -/
theorem extractLeafAccounts_spec (data : Rec) :
    (∀ a, a ∈ extractLeafAccounts data ↔
      a ∈ keysOf data ∧ ∀ b ∈ keysOf data, b ≠ a → startsWithSep a b = false) ∧
    (extractLeafAccounts data).Pairwise (fun a b => lexLe a b = true) := by
  constructor
  · intro a
    show a ∈ sortLex _ ↔ _
    rw [(sortLex_perm _).mem_iff, List.mem_filter]
    constructor
    · rintro ⟨hmem, hpred⟩
      refine ⟨hmem, fun b hb hne => ?_⟩
      cases hq : startsWithSep a b with
      | false => rfl
      | true =>
        have hany : (keysOf data).any (fun otherAccount =>
            decide (otherAccount ≠ a) && startsWithSep a otherAccount) = true :=
          List.any_eq_true.mpr ⟨b, hb, by rw [hq]; simp [hne]⟩
        rw [hany] at hpred
        exact absurd hpred (by simp)
    · rintro ⟨hmem, hleaf⟩
      refine ⟨hmem, ?_⟩
      cases hq : (keysOf data).any (fun otherAccount =>
          decide (otherAccount ≠ a) && startsWithSep a otherAccount) with
      | false => rfl
      | true =>
        obtain ⟨b, hb, hpb⟩ := List.any_eq_true.mp hq
        rw [Bool.and_eq_true, decide_eq_true_eq] at hpb
        have hfalse := hleaf b hb hpb.1
        rw [hfalse] at hpb
        exact absurd hpb.2 (by simp)
  · exact sortLex_pairwise _

/-! ### Claim C10 -/

/-- C10 counterexample: with the single option `""` and the empty search
term, the filtered option list is non-empty, yet `clearAll` returns the
empty selection, because the JS truthiness test `firstItem ? ... : ...`
treats the empty string as falsy. -/
theorem clearAll_counterexample :
    filteredOptions [([] : Path)] [] ≠ [] ∧ clearAll [([] : Path)] [] = [] := by
  decide

/-- C10 as amended: after `clearAll` the selection is the singleton of the
first filtered option when that option is a non-empty string, and the
empty selection when no option matches the search term or when the first
matching option is the empty string. -/
theorem clearAll_first_filtered (options : List Path) (searchTerm : Path) :
    (filteredOptions options searchTerm = [] → clearAll options searchTerm = []) ∧
    (∀ first rest, filteredOptions options searchTerm = first :: rest →
      clearAll options searchTerm = if first = [] then [] else [first]) := by
  constructor
  · intro h
    unfold clearAll firstFilteredItem
    rw [h]
    rfl
  · intro first rest h
    unfold clearAll firstFilteredItem
    rw [h]
    show (match (if 0 < (first :: rest).length then some (first :: rest).headI
      else none) with
      | some s => if s = [] then [] else [s]
      | none => []) = _
    rw [if_pos (by simp)]
    rfl

/-- Witness for the amended C10 at a non-empty first option. -/
theorem clearAll_first_filtered_witness :
    clearAll [(['a'] : Path)] [] = [['a']] := by
  have h := (clearAll_first_filtered [(['a'] : Path)] []).2 ['a'] [] (by decide)
  simpa using h

end Paisa
